import Mathlib

/-!
# Sign-Kit: pose export and clip combination

A shallow embedding of `src/Pages/AnimationCombiner.js` and
`src/Pages/AnimationExporter.js`.

Modelling conventions.

* A JavaScript number is a rational (`ℚ`): every finite double is one.  `NaN`,
  the infinities and a result beyond the largest finite value are outside the
  model.
* `toDouble` is the rounding of a double operation and `toFloat32` the one of a
  store into a `Float32Array`, both to nearest with ties to even.  They are
  applied in `combineAnimations` (the additions, the stored times) and in
  reading a numeral back (`readNumber`).
* In `formatRadian` the quotients of the table and the difference that is
  compared with the tolerance are the exact ones, and a decimal literal of the
  source (`0.0001`, `0.001`) is the decimal it writes.  `Math.PI` is the exact
  value of the double nearest to π.  `toFixed` prints the exact value of its
  argument, as ECMAScript says.
* A typed array (`Float32Array`) is a `List ℚ`.
* React state (`useState`) is a record; a handler is a function from the
  record before the call to the record after it.
* Built-ins of the JavaScript runtime that the code calls and that cannot be
  written over `ℚ` (`String.prototype.toUpperCase` on arbitrary Unicode,
  `Number::toString` for magnitudes of `1e21` and more) are fields of
  `JSRuntime`.
-/

namespace SignKit

/-! ## Data model -/

/-- The class of a keyframe track: what `originalTrack.constructor` is. -/
inductive TrackKind where
  | number
  | vector
  | quaternion
  | color
  | boolean
  | string
  deriving DecidableEq, Repr

/-- A `THREE.KeyframeTrack`: its class and the three constructor arguments. -/
structure KeyframeTrack where
  ctor : TrackKind
  name : String
  times : List ℚ
  values : List ℚ
  deriving DecidableEq, Repr

/-- A `THREE.AnimationClip`: the three constructor arguments. -/
structure AnimationClip where
  name : String
  duration : ℚ
  tracks : List KeyframeTrack
  deriving DecidableEq, Repr

/-- The `rotation` of a scene node (`THREE.Euler`). -/
structure Euler where
  x : ℚ
  y : ℚ
  z : ℚ
  deriving DecidableEq, Repr

/-- A node of the scene graph (`THREE.Object3D`) with the fields the export
reads. -/
inductive Object3D where
  | mk (name : String) (isBone : Bool) (rotation : Euler) (children : List Object3D)

namespace Object3D

/-- The field `name`. -/
def name : Object3D → String
  | mk n _ _ _ => n

/-- The field `isBone`. -/
def isBone : Object3D → Bool
  | mk _ b _ _ => b

/-- The field `rotation`. -/
def rotation : Object3D → Euler
  | mk _ _ r _ => r

/-- The field `children`. -/
def children : Object3D → List Object3D
  | mk _ _ _ cs => cs

end Object3D

/-- The services of the JavaScript runtime that are taken as given. -/
structure JSRuntime where
  /-- The method `String.prototype.toUpperCase`. -/
  toUpperCase : String → String
  /-- The conversion `Number::toString` on a magnitude of `1e21` or more. -/
  numberToString : ℚ → String

/-! ## Built-ins of the language -/

/-- The constant `Math.PI`: the double `3.141592653589793`, exactly. -/
def MathPI : ℚ := 884279719003555 / 281474976710656

/-- The integer nearest to `q`, the even one of the two on a tie. -/
def roundHalfEven (q : ℚ) : ℤ :=
  let f := ⌊q⌋
  if q - f < 1 / 2 then f
  else if 1 / 2 < q - f then f + 1
  else if f % 2 = 0 then f else f + 1

/-- Rounding to the nearest binary floating-point number of precision `p` whose
least normal exponent is `emin`, ties to even (`roundTiesToEven` of IEEE 754);
`e` is the exponent of the unit in the last place. -/
def roundBinary (p : ℕ) (emin : ℤ) (x : ℚ) : ℚ :=
  if x = 0 then 0
  else
    let e : ℤ := max (Int.log 2 |x|) emin - ((p : ℤ) - 1)
    roundHalfEven (x / (2 : ℚ) ^ e) * (2 : ℚ) ^ e

/-- The number a `Float32Array` stores for `x`. -/
def toFloat32 (x : ℚ) : ℚ := roundBinary 24 (-126) x

/-- The double nearest to `x`: the result of a double operation whose exact
result is `x`. -/
def toDouble (x : ℚ) : ℚ := roundBinary 53 (-1022) x

/-- The digits `toFixed` prints for the integer `n` and `f` fraction digits: the
decimal digits of `n`, padded with zeros to more than `f` digits, with a point
before the last `f` digits. -/
def fixedDigits (n f : ℕ) : List Char :=
  let m := if n = 0 then ['0'] else Nat.toDigits 10 n
  if f ≠ 0 then
    let k := m.length
    let m := if k ≤ f then List.replicate (f + 1 - k) '0' ++ m else m
    let k := m.length
    m.take (k - f) ++ '.' :: m.drop (k - f)
  else m

/-- The method `Number.prototype.toFixed(f)` of ECMAScript, on a finite number:
the sign is split off, a magnitude of `1e21` or more is handed to
`Number::toString`, any other magnitude `a` is printed as the integer `n`
nearest to `a * 10 ^ f` (the larger one on a tie) with a point before its last
`f` digits. -/
def toFixed (rt : JSRuntime) (x : ℚ) (f : ℕ) : String :=
  let s := if x < 0 then "-" else ""
  let a := if x < 0 then -x else x
  if (10 : ℚ) ^ 21 ≤ a then s ++ rt.numberToString a
  else
    let n := ⌊a * (10 : ℚ) ^ f + 1 / 2⌋.toNat
    s ++ String.mk (fixedDigits n f)

/-! ## AnimationCombiner.js: `formatRadian` and `exportPose` -/

namespace AnimationCombiner

/-- The React state of the `AnimationCombiner` component. -/
structure State where
  animations : List AnimationClip
  model : Option Object3D
  exportedData : String
  fileName : String
  combinationList : List AnimationClip
  selectedAnimation : Option AnimationClip

/-- The object literal `fractions`, in the order `Object.entries` lists it. -/
def fractions : List (String × ℚ) :=
  [ ("Math.PI", MathPI),
    ("Math.PI/2", MathPI / 2),
    ("Math.PI/3", MathPI / 3),
    ("Math.PI/4", MathPI / 4),
    ("Math.PI/6", MathPI / 6),
    ("Math.PI/8", MathPI / 8),
    ("Math.PI/9", MathPI / 9),
    ("Math.PI/10", MathPI / 10),
    ("Math.PI/12", MathPI / 12),
    ("Math.PI/18", MathPI / 18),
    ("Math.PI/36", MathPI / 36),
    ("Math.PI/72", MathPI / 72) ]

/-- The loop `for (const [str, val] of Object.entries(fractions))` of
`formatRadian`: the value returned from inside the loop, if any. -/
def scanFractions (sign : String) (absRad tolerance : ℚ) : List (String × ℚ) → Option String
  | [] => none
  | (str, val) :: rest =>
    if |absRad - val| < tolerance then some (sign ++ str)
    else scanFractions sign absRad tolerance rest

/-- The function `formatRadian`, with the table it scans as an argument. -/
def formatRadianOn (rt : JSRuntime) (table : List (String × ℚ)) (radian : ℚ) : String :=
  if |radian| < 1 / 10000 then "0"
  else
    let tolerance : ℚ := 1 / 1000
    let sign := if radian < 0 then "-" else ""
    let absRad := |radian|
    match scanFractions sign absRad tolerance table with
    | some label => label
    | none => toFixed rt radian 4

/-- The function `formatRadian`. -/
def formatRadian (rt : JSRuntime) (radian : ℚ) : String :=
  formatRadianOn rt fractions radian

/-- The sign token `signChar` of `generateLine`. -/
def signChar (value : ℚ) : String :=
  if 0 ≤ value then "+" else "-"

/-- The template literal that `generateLine` appends to `output`. -/
def pushLine (childName axis formattedValue sign : String) : String :=
  "    animations.push([\"" ++ childName ++ "\", \"rotation\", \"" ++ axis ++ "\", "
    ++ formattedValue ++ ", \"" ++ sign ++ "\"]);\n"

/-- The closure `generateLine` of the bone `child`, as a function on `output`. -/
def generateLine (rt : JSRuntime) (child : Object3D) (axis : String) (value : ℚ)
    (output : String) : String :=
  if |value| < 1 / 10000 then output
  else
    let formattedValue := formatRadian rt value
    output ++ pushLine child.name axis formattedValue (signChar value)

/-- The callback handed to `model.traverse`, as a function on `output`. -/
def visit (rt : JSRuntime) (child : Object3D) (output : String) : String :=
  if child.isBone then
    let rotation := child.rotation
    generateLine rt child "z" rotation.z
      (generateLine rt child "y" rotation.y
        (generateLine rt child "x" rotation.x output))
  else output

end AnimationCombiner

mutual
/-- The method `Object3D.traverse`: the callback on the node, then on every
child's subtree in order. -/
def traverse {σ : Type} (callback : Object3D → σ → σ) : Object3D → σ → σ
  | .mk n b r cs, s => traverseChildren callback cs (callback (.mk n b r cs) s)
/-- The loop of `Object3D.traverse` over `children`. -/
def traverseChildren {σ : Type} (callback : Object3D → σ → σ) : List Object3D → σ → σ
  | [], s => s
  | c :: cs, s => traverseChildren callback cs (traverse callback c s)
end

/-- The first line of the export and the blank line after it. -/
def exportHeader (rt : JSRuntime) (fileName : String) : String :=
  "export const " ++ rt.toUpperCase fileName ++ " = (ref) => \x7b\n\n"

/-- The declaration of the list `animations` in the export. -/
def exportDecl : String := "    let animations = []\n\n"

/-- The text both exports append after the traversal. -/
def exportFooter (output : String) : String :=
  let output := output ++ "\n    ref.animations.push(animations);\n\n"
  let output := output ++ "    if(ref.pending === false)\x7b\n"
  let output := output ++ "        ref.pending = true;\n"
  let output := output ++ "        ref.animate();\n"
  let output := output ++ "    \x7d\n\n"
  output ++ "\x7d\n"

namespace AnimationCombiner

/-- The text `output` that `exportPose` builds for a loaded model. -/
def exportText (rt : JSRuntime) (model : Object3D) (fileName : String) : String :=
  let output := exportHeader rt fileName
  let output := output ++ exportDecl
  let output := traverse (visit rt) model output
  exportFooter output

/-- The handler `exportPose`. -/
def exportPose (rt : JSRuntime) (s : State) : State :=
  match s.model with
  | none => s
  | some model => { s with exportedData := exportText rt model s.fileName }

end AnimationCombiner

/-! ## AnimationExporter.js: `exportPose` -/

namespace AnimationExporter

/-- The state of the `AnimationExporter` component: the React state and the
scene held in the ref `model`. -/
structure State where
  animations : List AnimationClip
  selectedAnimation : Option AnimationClip
  exportedData : String
  fileName : String
  model : Option Object3D

/-- The sign token of a line: the conditional on `rotation.x > 0`. -/
def signChar (value : ℚ) : String :=
  if 0 < value then "+" else "-"

/-- One of the three `if (rotation.x !== 0)` statements, as a function on
`output`. -/
def axisLine (rt : JSRuntime) (child : Object3D) (axis : String) (value : ℚ)
    (output : String) : String :=
  if value ≠ 0 then
    output ++ AnimationCombiner.pushLine child.name axis (toFixed rt value 4) (signChar value)
  else output

/-- The callback handed to `model.current.traverse`, as a function on `output`. -/
def visit (rt : JSRuntime) (child : Object3D) (output : String) : String :=
  if child.isBone then
    let rotation := child.rotation
    axisLine rt child "z" rotation.z
      (axisLine rt child "y" rotation.y
        (axisLine rt child "x" rotation.x output))
  else output

/-- The text `output` that `exportPose` builds from the posed model. -/
def exportText (rt : JSRuntime) (model : Object3D) (fileName : String) : String :=
  let output := exportHeader rt fileName
  let output := output ++ exportDecl
  let output := traverse (visit rt) model output
  exportFooter output

/-- The handler `exportPose`.  The mixer calls before the text is built pose
the bones of the scene; `mixerUpdate` is the scene they leave. -/
def exportPose (rt : JSRuntime) (mixerUpdate : Object3D → AnimationClip → Object3D)
    (s : State) : State :=
  match s.model, s.selectedAnimation with
  | some model, some clip =>
    let posed := mixerUpdate model clip
    { s with model := some posed, exportedData := exportText rt posed s.fileName }
  | _, _ => s

end AnimationExporter

/-! ## Reading a numeral back -/

/-- The number a string of decimal digits denotes. -/
def decimalValue (cs : List Char) : ℕ :=
  cs.foldl (fun acc c => acc * 10 + (c.toNat - 48)) 0

/-- The value of the mantissa of a numeral: `ddd`, `ddd.`, `ddd.ddd` or `.ddd`. -/
def readMantissa (cs : List Char) : Option ℚ :=
  let ip := cs.takeWhile (fun c => c != '.')
  match cs.dropWhile (fun c => c != '.') with
  | [] =>
    if ip ≠ [] ∧ ip.all Char.isDigit then some (decimalValue ip) else none
  | _ :: fp =>
    if (ip ≠ [] ∨ fp ≠ []) ∧ ip.all Char.isDigit ∧ fp.all Char.isDigit then
      some (decimalValue ip + decimalValue fp / (10 : ℚ) ^ fp.length)
    else none

/-- The value of the exponent of a numeral, the text after its `e`: digits with
an optional sign. -/
def readExponent (cs : List Char) : Option ℤ :=
  match cs with
  | '+' :: ds => if ds ≠ [] ∧ ds.all Char.isDigit then some (decimalValue ds) else none
  | '-' :: ds => if ds ≠ [] ∧ ds.all Char.isDigit then some (-(decimalValue ds : ℤ)) else none
  | ds => if ds ≠ [] ∧ ds.all Char.isDigit then some (decimalValue ds) else none

/-- Whether a character opens the exponent of a numeral. -/
def isExponentMark (c : Char) : Bool := c == 'e' || c == 'E'

/-- The mathematical value of an unsigned decimal literal (`StrDecimalLiteral`
of ECMAScript without `Infinity`): a mantissa with an optional exponent. -/
def readUnsigned (cs : List Char) : Option ℚ :=
  let mantissa := cs.takeWhile (fun c => !isExponentMark c)
  match cs.dropWhile (fun c => !isExponentMark c) with
  | [] => readMantissa mantissa
  | _ :: exponent =>
    match readMantissa mantissa, readExponent exponent with
    | some v, some k => some (v * (10 : ℚ) ^ k)
    | _, _ => none

/-- The mathematical value of a decimal literal with an optional sign; `none`
when the text is not such a literal. -/
def readDecimal (text : String) : Option ℚ :=
  match text.data with
  | '-' :: cs => (readUnsigned cs).map (fun q => -q)
  | '+' :: cs => readUnsigned cs
  | cs => readUnsigned cs

/-- The number `Number(text)` for a text that is a decimal literal with an
optional sign: the double nearest to its mathematical value.  It is `none` for
any other text; for a text that is no numeric literal at all, such as
`Math.PI/2`, `Number(text)` is `NaN`. -/
def readNumber (text : String) : Option ℚ :=
  (readDecimal text).map toDouble

/-- The text ECMAScript's `Number::toString` builds from the digits `ds` of its
integer `s` and the exponent `n`: the first digit, a point before the other
digits if there are any, `e+` and the digits of `n`. -/
def exponentText (ds : List Char) (n : ℕ) : List Char :=
  match ds with
  | [] => []
  | [d] => d :: 'e' :: '+' :: Nat.toDigits 10 n
  | d :: rest => d :: '.' :: rest ++ 'e' :: '+' :: Nat.toDigits 10 n

/-- What ECMAScript asks of `Number::toString` at a magnitude `x` of `1e21` or
more, as far as it is used here: the text is built from digits of an integer
`s` and an exponent `n` for which `s * 10 ^ (n - k + 1)`, with `k` the number of
digits, rounds to `x`. -/
def JSRuntime.numberToStringConforms (rt : JSRuntime) (x : ℚ) : Prop :=
  ∃ (ds : List Char) (n : ℕ), ds ≠ [] ∧ (∀ c ∈ ds, c.isDigit = true)
    ∧ rt.numberToString x = String.mk (exponentText ds n)
    ∧ toDouble ((decimalValue ds : ℚ) * (10 : ℚ) ^ (n : ℤ) / (10 : ℚ) ^ (ds.length - 1)) = x

/-- Whether the first character of a text is the minus sign. -/
def startsWithMinus (text : String) : Bool :=
  text.data.head? == some '-'

/-! ## AnimationCombiner.js: `combineAnimations` -/

namespace AnimationCombiner

/-- The body of the inner loop of `combineAnimations`: the track pushed for
`originalTrack` when the running total is `totalDuration`.  The callback of
`map` adds in double arithmetic and the `Float32Array` that `map` builds stores
the sum in single precision. -/
def newTrack (totalDuration : ℚ) (originalTrack : KeyframeTrack) : KeyframeTrack :=
  let newValues := originalTrack.values
  let newTimes := originalTrack.times.map (fun t => toFloat32 (toDouble (t + totalDuration)))
  { ctor := originalTrack.ctor, name := originalTrack.name, times := newTimes, values := newValues }

/-- The inner loop `for (const originalTrack of clip.tracks)`. -/
def pushTracks (totalDuration : ℚ) (tracks newTracks : List KeyframeTrack) : List KeyframeTrack :=
  tracks.foldl (fun acc originalTrack => acc ++ [newTrack totalDuration originalTrack]) newTracks

/-- The outer loop `for (const clip of clips)`, on the pair
`(totalDuration, newTracks)`. -/
def combineLoop (clips : List AnimationClip) (init : ℚ × List KeyframeTrack) :
    ℚ × List KeyframeTrack :=
  clips.foldl
    (fun st clip => (toDouble (st.1 + clip.duration), pushTracks st.1 clip.tracks st.2)) init

/-- The clip `combinedClip` that `combineAnimations` builds from `clips`. -/
def combinedClip (clips : List AnimationClip) : AnimationClip :=
  let r := combineLoop clips (0, [])
  { name := "combined", duration := r.1, tracks := r.2 }

/-- The handler `combineAnimations`. -/
def combineAnimations (s : State) : State :=
  if s.combinationList.length < 2 then s
  else
    { s with
      animations := s.animations ++ [combinedClip s.combinationList]
      combinationList := [] }

end AnimationCombiner

/-! ## Values used in the examples -/

/-- A runtime for the examples: upper-casing of ASCII letters, and the numeral
`1e+21` for the one magnitude the examples could hand to `numberToString`. -/
def exampleRuntime : JSRuntime :=
  { toUpperCase := fun s => String.mk (s.data.map Char.toUpper)
    numberToString := fun _ => "1e+21" }

/-- A quaternion track with the single key `t`. -/
def keyAt (t : ℚ) : KeyframeTrack :=
  { ctor := TrackKind.quaternion, name := "Arm.quaternion", times := [t], values := [0, 0, 0, 1] }

/-- A clip of duration 1 with one key at time 0. -/
def clipA : AnimationClip := { name := "wave", duration := 1, tracks := [keyAt 0] }

/-- A clip of duration 2 with two tracks, keyed at times 0 and 1. -/
def clipB : AnimationClip := { name := "nod", duration := 2, tracks := [keyAt 0, keyAt 1] }

/-- A clip of duration 3 with one key at time 0. -/
def clipC : AnimationClip := { name := "bow", duration := 3, tracks := [keyAt 0] }

/-- A clip of duration 1 with one key at time -1. -/
def clipEarly : AnimationClip := { name := "early", duration := 1, tracks := [keyAt (-1)] }

/-- A clip of duration 1 without tracks. -/
def clipShort : AnimationClip := { name := "short", duration := 1, tracks := [] }

/-- A clip of duration 2 without tracks. -/
def clipLong : AnimationClip := { name := "long", duration := 2, tracks := [] }

/-- A clip whose duration is the single-precision value nearest to 0.3, with one
key at the single-precision value nearest to 0.1. -/
def clipThird : AnimationClip :=
  { name := "third", duration := 10066330 / 2 ^ 25, tracks := [keyAt (13421773 / 2 ^ 27)] }

/-- A clip of duration 1 with one key at the single-precision value nearest to
0.1. -/
def clipTenth : AnimationClip :=
  { name := "tenth", duration := 1, tracks := [keyAt (13421773 / 2 ^ 27)] }

/-- A clip without tracks whose duration, the double `1.300000011920929`, lies
halfway between two neighbouring single-precision values. -/
def clipOdd : AnimationClip := { name := "odd", duration := 21810381 / 2 ^ 24, tracks := [] }

/-- A clip of duration 1.5 with one key at time 1. -/
def clipHalf : AnimationClip := { name := "half", duration := 3 / 2, tracks := [keyAt 1] }

/-- A clip of duration `1.5 + 2 ^ -23` with one key at time 1. -/
def clipHalfUp : AnimationClip :=
  { name := "halfUp", duration := 3 / 2 + 1 / 2 ^ 23, tracks := [keyAt 1] }

/-- The bone "Arm" at the rotation `(1.5708, 0, 0)`. -/
def armBone : Object3D := .mk "Arm" true ⟨15708 / 10000, 0, 0⟩ []

/-- A bone at the rotation `(2 ^ -14, 0, 0)`, about `6.1e-5` on the axis `x`. -/
def driftBone : Object3D := .mk "Arm" true ⟨1 / 16384, 0, 0⟩ []

/-- A bone at the rotation `(-(2 ^ -15), 0, 0)`, about `-3.1e-5` on the axis `x`. -/
def creepBone : Object3D := .mk "Arm" true ⟨-(1 / 32768), 0, 0⟩ []

/-- A session of the combiner with the model `armBone` loaded from `pose1.glb`. -/
def poseSession : AnimationCombiner.State :=
  { animations := [], model := some armBone, exportedData := "", fileName := "pose1",
    combinationList := [], selectedAnimation := none }

/-- A session of the combiner with the given combination list. -/
def sessionWith (clips : List AnimationClip) : AnimationCombiner.State :=
  { animations := [clipA, clipB], model := none, exportedData := "", fileName := "pose1",
    combinationList := clips, selectedAnimation := none }

/-! ## Theorems: rounding -/

theorem roundHalfEven_le (q : ℚ) : (roundHalfEven q : ℚ) ≤ q + 1 / 2 := by
  have h1 := Int.floor_le q
  have h2 := Int.lt_floor_add_one q
  unfold roundHalfEven
  simp only
  split_ifs <;> push_cast <;> linarith

theorem roundHalfEven_ge (q : ℚ) : q - 1 / 2 ≤ (roundHalfEven q : ℚ) := by
  have h1 := Int.floor_le q
  have h2 := Int.lt_floor_add_one q
  unfold roundHalfEven
  simp only
  split_ifs <;> push_cast <;> linarith

theorem roundHalfEven_of_lt (q : ℚ) (n : ℤ) (h : |q - n| < 1 / 2) : roundHalfEven q = n := by
  rw [abs_lt] at h
  have h1 := roundHalfEven_le q
  have h2 := roundHalfEven_ge q
  have h3 : ((roundHalfEven q - n : ℤ) : ℚ) < 1 := by push_cast; linarith
  have h4 : (-1 : ℚ) < ((roundHalfEven q - n : ℤ) : ℚ) := by push_cast; linarith
  have h5 : roundHalfEven q - n < 1 := by exact_mod_cast h3
  have h6 : -1 < roundHalfEven q - n := by exact_mod_cast h4
  omega

theorem roundHalfEven_intCast (n : ℤ) : roundHalfEven (n : ℚ) = n :=
  roundHalfEven_of_lt _ n (by simp)

theorem roundHalfEven_tie (n : ℤ) :
    roundHalfEven ((n : ℚ) + 1 / 2) = if n % 2 = 0 then n else n + 1 := by
  have hf : ⌊(n : ℚ) + 1 / 2⌋ = n := by
    rw [Int.floor_eq_iff]; constructor <;> linarith
  unfold roundHalfEven
  simp only [hf]
  have h1 : ¬ ((n : ℚ) + 1 / 2 - n < 1 / 2) := by simp
  have h2 : ¬ ((1 : ℚ) / 2 < (n : ℚ) + 1 / 2 - n) := by simp
  rw [if_neg h1, if_neg h2]

theorem roundHalfEven_mono {q₁ q₂ : ℚ} (h : q₁ ≤ q₂) : roundHalfEven q₁ ≤ roundHalfEven q₂ := by
  have hf : ⌊q₁⌋ ≤ ⌊q₂⌋ := Int.floor_mono h
  have a1 := Int.floor_le q₁
  have a2 := Int.lt_floor_add_one q₁
  have b1 := Int.floor_le q₂
  have b2 := Int.lt_floor_add_one q₂
  rcases hf.eq_or_lt with heq | hlt
  · unfold roundHalfEven
    simp only
    rw [← heq]
    split_ifs <;> first | omega | (exfalso; linarith)
  · have hx : roundHalfEven q₁ ≤ ⌊q₁⌋ + 1 := by
      unfold roundHalfEven; simp only; split_ifs <;> omega
    have hy : ⌊q₂⌋ ≤ roundHalfEven q₂ := by
      unfold roundHalfEven; simp only; split_ifs <;> omega
    omega

theorem roundHalfEven_neg (q : ℚ) : roundHalfEven (-q) = -roundHalfEven q := by
  by_cases hint : (⌊q⌋ : ℚ) = q
  · rw [← hint, ← Int.cast_neg, roundHalfEven_intCast, roundHalfEven_intCast]
  · have a1 := Int.floor_le q
    have a2 := Int.lt_floor_add_one q
    have hlt : (⌊q⌋ : ℚ) < q := lt_of_le_of_ne a1 hint
    have hf : ⌊-q⌋ = -⌊q⌋ - 1 := by
      rw [Int.floor_eq_iff]; push_cast; constructor <;> linarith
    unfold roundHalfEven
    simp only [hf]
    push_cast
    split_ifs <;> first | omega | (exfalso; linarith)

theorem two_zpow_pos (e : ℤ) : (0 : ℚ) < (2 : ℚ) ^ e := zpow_pos (by norm_num) e

theorem roundBinary_zero (p : ℕ) (emin : ℤ) : roundBinary p emin 0 = 0 := by
  simp [roundBinary]

theorem roundBinary_neg (p : ℕ) (emin : ℤ) (x : ℚ) :
    roundBinary p emin (-x) = -roundBinary p emin x := by
  by_cases hx : x = 0
  · simp [hx, roundBinary_zero]
  · have hx2 : -x ≠ 0 := neg_ne_zero.mpr hx
    simp only [roundBinary, hx, hx2, if_false, abs_neg, neg_div, roundHalfEven_neg, Int.cast_neg,
      neg_mul]

theorem roundBinary_nonneg (p : ℕ) (emin : ℤ) {x : ℚ} (hx : 0 ≤ x) : 0 ≤ roundBinary p emin x := by
  by_cases h0 : x = 0
  · simp [h0, roundBinary_zero]
  · simp only [roundBinary, h0, if_false]
    have hq : (0 : ℚ) ≤ x / (2 : ℚ) ^ (max (Int.log 2 |x|) emin - ((p : ℤ) - 1)) :=
      div_nonneg hx (two_zpow_pos _).le
    have h := roundHalfEven_mono hq
    rw [show (0 : ℚ) = ((0 : ℤ) : ℚ) by simp, roundHalfEven_intCast] at h
    exact mul_nonneg (by exact_mod_cast h) (two_zpow_pos _).le

theorem roundBinary_mono_pos (p : ℕ) (hp : 1 ≤ p) (emin : ℤ) {x y : ℚ} (hx : 0 < x) (hxy : x ≤ y) :
    roundBinary p emin x ≤ roundBinary p emin y := by
  have hy : 0 < y := lt_of_lt_of_le hx hxy
  have hL : Int.log 2 x ≤ Int.log 2 y := Int.log_mono_right hx hxy
  simp only [roundBinary, hx.ne', hy.ne', if_false, abs_of_pos hx, abs_of_pos hy]
  generalize hex : max (Int.log 2 x) emin - ((p : ℤ) - 1) = ex
  generalize hey : max (Int.log 2 y) emin - ((p : ℤ) - 1) = ey
  have hle : ex ≤ ey := by
    rw [← hex, ← hey]
    have := max_le_max hL (le_refl emin)
    omega
  rcases hle.eq_or_lt with heq | hlt
  · rw [← heq]
    have hq : x / (2 : ℚ) ^ ex ≤ y / (2 : ℚ) ^ ex :=
      div_le_div_of_nonneg_right hxy (two_zpow_pos _).le
    have h := roundHalfEven_mono hq
    exact mul_le_mul_of_nonneg_right (by exact_mod_cast h) (two_zpow_pos _).le
  · -- the exponent grows: a power of two lies between the two results
    have hMy : max (Int.log 2 y) emin = Int.log 2 y := by
      rcases max_cases (Int.log 2 y) emin with ⟨h, -⟩ | ⟨h, -⟩
      · exact h
      · exfalso
        have := le_max_right (Int.log 2 x) emin
        omega
    have hLy : max (Int.log 2 x) emin + 1 ≤ Int.log 2 y := by omega
    have hLx : Int.log 2 x ≤ max (Int.log 2 x) emin := le_max_left _ _
    -- the upper bound of the first result
    have hx2 : x < (2 : ℚ) ^ (max (Int.log 2 x) emin + 1) := by
      have h1 := Int.lt_zpow_succ_log_self (b := 2) (by norm_num) x
      have h2 : ((2 : ℕ) : ℚ) ^ (Int.log 2 x + 1) ≤ (2 : ℚ) ^ (max (Int.log 2 x) emin + 1) := by
        push_cast
        exact zpow_le_zpow_right₀ (by norm_num) (by omega)
      exact lt_of_lt_of_le h1 h2
    have hqx : x / (2 : ℚ) ^ ex ≤ (((2 : ℤ) ^ p : ℤ) : ℚ) := by
      rw [div_le_iff₀ (two_zpow_pos _)]
      push_cast
      rw [← zpow_natCast, ← zpow_add₀ (by norm_num : (2 : ℚ) ≠ 0)]
      have : (p : ℤ) + ex = max (Int.log 2 x) emin + 1 := by omega
      rw [this]
      exact hx2.le
    have hrx := roundHalfEven_mono hqx
    rw [roundHalfEven_intCast] at hrx
    have hbx : (roundHalfEven (x / (2 : ℚ) ^ ex) : ℚ) * (2 : ℚ) ^ ex
        ≤ (2 : ℚ) ^ (max (Int.log 2 x) emin + 1) := by
      have h1 : (roundHalfEven (x / (2 : ℚ) ^ ex) : ℚ) ≤ (2 : ℚ) ^ (p : ℤ) := by
        have : ((roundHalfEven (x / (2 : ℚ) ^ ex) : ℤ) : ℚ) ≤ (((2 : ℤ) ^ p : ℤ) : ℚ) := by
          exact_mod_cast hrx
        simpa using this
      calc (roundHalfEven (x / (2 : ℚ) ^ ex) : ℚ) * (2 : ℚ) ^ ex
          ≤ (2 : ℚ) ^ (p : ℤ) * (2 : ℚ) ^ ex :=
            mul_le_mul_of_nonneg_right h1 (two_zpow_pos _).le
        _ = (2 : ℚ) ^ (max (Int.log 2 x) emin + 1) := by
            rw [← zpow_add₀ (by norm_num : (2 : ℚ) ≠ 0)]
            congr 1
            omega
    -- the lower bound of the second result
    have hy2 : (2 : ℚ) ^ (Int.log 2 y) ≤ y := by
      have := Int.zpow_log_le_self (b := 2) (by norm_num) hy
      simpa using this
    have hqy : (((2 : ℤ) ^ (p - 1) : ℤ) : ℚ) ≤ y / (2 : ℚ) ^ ey := by
      rw [le_div_iff₀ (two_zpow_pos _)]
      push_cast
      rw [← zpow_natCast, ← zpow_add₀ (by norm_num : (2 : ℚ) ≠ 0)]
      have : ((p - 1 : ℕ) : ℤ) + ey = Int.log 2 y := by omega
      rw [this]
      exact hy2
    have hry := roundHalfEven_mono hqy
    rw [roundHalfEven_intCast] at hry
    have hby : (2 : ℚ) ^ (Int.log 2 y) ≤ (roundHalfEven (y / (2 : ℚ) ^ ey) : ℚ) * (2 : ℚ) ^ ey := by
      have h1 : (2 : ℚ) ^ ((p - 1 : ℕ) : ℤ) ≤ (roundHalfEven (y / (2 : ℚ) ^ ey) : ℚ) := by
        have : (((2 : ℤ) ^ (p - 1) : ℤ) : ℚ) ≤ ((roundHalfEven (y / (2 : ℚ) ^ ey) : ℤ) : ℚ) := by
          exact_mod_cast hry
        simpa using this
      calc (2 : ℚ) ^ (Int.log 2 y) = (2 : ℚ) ^ ((p - 1 : ℕ) : ℤ) * (2 : ℚ) ^ ey := by
            rw [← zpow_add₀ (by norm_num : (2 : ℚ) ≠ 0)]
            congr 1
            omega
        _ ≤ (roundHalfEven (y / (2 : ℚ) ^ ey) : ℚ) * (2 : ℚ) ^ ey :=
            mul_le_mul_of_nonneg_right h1 (two_zpow_pos _).le
    have hmid : (2 : ℚ) ^ (max (Int.log 2 x) emin + 1) ≤ (2 : ℚ) ^ (Int.log 2 y) :=
      zpow_le_zpow_right₀ (by norm_num) hLy
    linarith

/-- Rounding is monotone. -/
theorem roundBinary_mono (p : ℕ) (hp : 1 ≤ p) (emin : ℤ) {x y : ℚ} (hxy : x ≤ y) :
    roundBinary p emin x ≤ roundBinary p emin y := by
  rcases lt_trichotomy 0 x with hx | hx | hx
  · exact roundBinary_mono_pos p hp emin hx hxy
  · rw [← hx, roundBinary_zero]
    exact roundBinary_nonneg p emin (hx ▸ hxy)
  · rcases le_or_lt 0 y with hy | hy
    · have h1 : roundBinary p emin x ≤ 0 := by
        have := roundBinary_nonneg p emin (neg_nonneg.mpr hx.le)
        rw [roundBinary_neg] at this
        linarith
      exact le_trans h1 (roundBinary_nonneg p emin hy)
    · have := roundBinary_mono_pos p hp emin (neg_pos.mpr hy) (neg_le_neg hxy)
      rw [roundBinary_neg, roundBinary_neg] at this
      linarith

theorem log_two_eq (x : ℚ) (k : ℤ) (h1 : (2 : ℚ) ^ k ≤ |x|) (h2 : |x| < (2 : ℚ) ^ (k + 1)) :
    Int.log 2 |x| = k := by
  have hpos : 0 < |x| := lt_of_lt_of_le (two_zpow_pos k) h1
  have a : k ≤ Int.log 2 |x| := by
    rw [← Int.zpow_le_iff_le_log (by norm_num) hpos]
    simpa using h1
  have b : Int.log 2 |x| < k + 1 := by
    rw [← Int.lt_zpow_iff_log_lt (by norm_num) hpos]
    simpa using h2
  omega

/-- Evaluation of a rounding away from a tie. -/
theorem roundBinary_eval (p : ℕ) (emin : ℤ) (x : ℚ) (k e n : ℤ)
    (h1 : (2 : ℚ) ^ k ≤ |x|) (h2 : |x| < (2 : ℚ) ^ (k + 1))
    (he : max k emin - ((p : ℤ) - 1) = e) (hn : |x / (2 : ℚ) ^ e - n| < 1 / 2) :
    roundBinary p emin x = n * (2 : ℚ) ^ e := by
  have hx : x ≠ 0 := by
    intro h
    rw [h, abs_zero] at h1
    exact absurd h1 (not_le.mpr (two_zpow_pos k))
  simp only [roundBinary, hx, if_false, log_two_eq x k h1 h2, he, roundHalfEven_of_lt _ n hn]

/-- Evaluation of a rounding at a tie. -/
theorem roundBinary_eval_tie (p : ℕ) (emin : ℤ) (x : ℚ) (k e n : ℤ)
    (h1 : (2 : ℚ) ^ k ≤ |x|) (h2 : |x| < (2 : ℚ) ^ (k + 1))
    (he : max k emin - ((p : ℤ) - 1) = e) (hn : x / (2 : ℚ) ^ e = n + 1 / 2) :
    roundBinary p emin x = (if n % 2 = 0 then n else n + 1 : ℤ) * (2 : ℚ) ^ e := by
  have hx : x ≠ 0 := by
    intro h
    rw [h, abs_zero] at h1
    exact absurd h1 (not_le.mpr (two_zpow_pos k))
  simp only [roundBinary, hx, if_false, log_two_eq x k h1 h2, he, hn, roundHalfEven_tie]

/-- A multiple of the unit in the last place is its own rounding. -/
theorem roundBinary_of_multiple (p : ℕ) (emin : ℤ) (x : ℚ) (n e : ℤ) (hx : x = n * (2 : ℚ) ^ e)
    (he : max (Int.log 2 |x|) emin - ((p : ℤ) - 1) ≤ e) :
    roundBinary p emin x = x := by
  by_cases h0 : x = 0
  · rw [h0, roundBinary_zero]
  · simp only [roundBinary, h0, if_false]
    generalize max (Int.log 2 |x|) emin - ((p : ℤ) - 1) = E at he ⊢
    obtain ⟨d, hd⟩ : ∃ d : ℕ, e = E + d := ⟨(e - E).toNat, by omega⟩
    have hq : x / (2 : ℚ) ^ E = ((n * 2 ^ d : ℤ) : ℚ) := by
      rw [div_eq_iff (two_zpow_pos E).ne', hx, hd, zpow_add₀ (by norm_num : (2 : ℚ) ≠ 0)]
      push_cast
      rw [zpow_natCast]
      ring
    rw [hq, roundHalfEven_intCast, ← hq]
    exact div_mul_cancel₀ x (two_zpow_pos E).ne'

/-- A single-precision value is a double. -/
theorem toDouble_of_toFloat32 (x : ℚ) (h : toFloat32 x = x) : toDouble x = x := by
  by_cases h0 : x = 0
  · rw [h0]; exact roundBinary_zero _ _
  · have hx : x = (roundHalfEven (x / (2 : ℚ) ^ (max (Int.log 2 |x|) (-126) - (((24 : ℕ) : ℤ) - 1)))
        : ℤ) * (2 : ℚ) ^ (max (Int.log 2 |x|) (-126) - (((24 : ℕ) : ℤ) - 1)) := by
      have := h
      simp only [toFloat32, roundBinary, h0, if_false] at this
      exact this.symm
    refine roundBinary_of_multiple 53 (-1022) x _ _ hx ?_
    have := max_le_max (le_refl (Int.log 2 |x|)) (by norm_num : (-1022 : ℤ) ≤ -126)
    push_cast
    omega

/-- The relative error of a rounding in the normal range. -/
theorem roundBinary_error (p : ℕ) (emin : ℤ) (x : ℚ) (hx : (2 : ℚ) ^ emin ≤ |x|) :
    |roundBinary p emin x - x| ≤ |x| / (2 : ℚ) ^ p := by
  have hpos : 0 < |x| := lt_of_lt_of_le (two_zpow_pos emin) hx
  have h0 : x ≠ 0 := abs_pos.mp hpos
  have hL : emin ≤ Int.log 2 |x| := by
    rw [← Int.zpow_le_iff_le_log (by norm_num) hpos]
    simpa using hx
  have h2L : (2 : ℚ) ^ (Int.log 2 |x|) ≤ |x| := by
    have := Int.zpow_log_le_self (b := 2) (by norm_num) hpos
    simpa using this
  simp only [roundBinary, h0, if_false, max_eq_left hL]
  generalize hE : Int.log 2 |x| - ((p : ℤ) - 1) = E
  have hEpos := two_zpow_pos E
  have h1 := roundHalfEven_le (x / (2 : ℚ) ^ E)
  have h2 := roundHalfEven_ge (x / (2 : ℚ) ^ E)
  have hxE : x / (2 : ℚ) ^ E * (2 : ℚ) ^ E = x := div_mul_cancel₀ x hEpos.ne'
  have hbound : (2 : ℚ) ^ E / 2 ≤ |x| / (2 : ℚ) ^ p := by
    rw [div_le_div_iff₀ (by norm_num) (by positivity)]
    have : (2 : ℚ) ^ E * (2 : ℚ) ^ p = (2 : ℚ) ^ (Int.log 2 |x|) * 2 := by
      rw [← zpow_natCast, ← zpow_add₀ (by norm_num : (2 : ℚ) ≠ 0),
        show E + (p : ℤ) = Int.log 2 |x| + 1 by omega, zpow_add₀ (by norm_num : (2 : ℚ) ≠ 0)]
      norm_num
    rw [this]
    linarith
  rw [abs_le]
  constructor
  · nlinarith
  · nlinarith

/-- A multiple of a power of two below `2 ^ (k + 1)` whose exponent is not
below the one of the unit in the last place is its own rounding. -/
theorem roundBinary_of_scaled (p : ℕ) (emin : ℤ) (x : ℚ) (n e k : ℤ) (hx : x = n * (2 : ℚ) ^ e)
    (hk : |x| < (2 : ℚ) ^ (k + 1)) (he : max k emin - ((p : ℤ) - 1) ≤ e) :
    roundBinary p emin x = x := by
  by_cases h0 : x = 0
  · rw [h0, roundBinary_zero]
  · refine roundBinary_of_multiple p emin x n e hx ?_
    have hpos : 0 < |x| := abs_pos.mpr h0
    have hlog : Int.log 2 |x| < k + 1 := by
      rw [← Int.lt_zpow_iff_log_lt (by norm_num) hpos]
      simpa using hk
    have := max_le_max (Int.lt_add_one_iff.mp hlog) (le_refl emin)
    omega

/-- A natural number below `2 ^ 24` is a single-precision value. -/
theorem toFloat32_natCast (n : ℕ) (h : n < 2 ^ 24) : toFloat32 (n : ℚ) = n := by
  refine roundBinary_of_scaled 24 (-126) n n 0 23 (by simp) ?_ (by norm_num)
  rw [abs_of_nonneg (by positivity)]
  have h2 : (2 : ℚ) ^ ((23 : ℤ) + 1) = ((2 ^ 24 : ℕ) : ℚ) := by norm_num
  rw [h2]
  exact_mod_cast h

/-- A natural number below `2 ^ 53` is a double. -/
theorem toDouble_natCast (n : ℕ) (h : n < 2 ^ 53) : toDouble (n : ℚ) = n := by
  refine roundBinary_of_scaled 53 (-1022) n n 0 52 (by simp) ?_ (by norm_num)
  rw [abs_of_nonneg (by positivity)]
  have h2 : (2 : ℚ) ^ ((52 : ℤ) + 1) = ((2 ^ 53 : ℕ) : ℚ) := by norm_num
  rw [h2]
  exact_mod_cast h

theorem toDouble_zero : toDouble 0 = 0 := roundBinary_zero _ _

theorem toFloat32_zero : toFloat32 0 = 0 := roundBinary_zero _ _

theorem toDouble_neg (x : ℚ) : toDouble (-x) = -toDouble x := roundBinary_neg _ _ x

theorem toDouble_mono {x y : ℚ} (h : x ≤ y) : toDouble x ≤ toDouble y :=
  roundBinary_mono 53 (by norm_num) _ h

theorem toFloat32_mono {x y : ℚ} (h : x ≤ y) : toFloat32 x ≤ toFloat32 y :=
  roundBinary_mono 24 (by norm_num) _ h

/-! ## Theorems: decimal numerals and `toFixed` -/

theorem digitChar_toNat (k : ℕ) (hk : k < 10) : (Nat.digitChar k).toNat - 48 = k := by
  interval_cases k <;> rfl

theorem digitChar_isDigit (k : ℕ) (hk : k < 10) : (Nat.digitChar k).isDigit = true := by
  interval_cases k <;> rfl

theorem toDigitsCore_append (fuel n : ℕ) (ds : List Char) :
    Nat.toDigitsCore 10 fuel n ds = Nat.toDigitsCore 10 fuel n [] ++ ds := by
  induction fuel generalizing n ds with
  | zero => simp [Nat.toDigitsCore]
  | succ fuel ih =>
    simp only [Nat.toDigitsCore]
    split
    · simp
    · rw [ih (n / 10) (Nat.digitChar (n % 10) :: ds), ih (n / 10) [Nat.digitChar (n % 10)]]
      simp

theorem decimalValue_append_singleton (cs : List Char) (c : Char) :
    decimalValue (cs ++ [c]) = decimalValue cs * 10 + (c.toNat - 48) := by
  simp [decimalValue, List.foldl_append]

theorem decimalValue_toDigitsCore (fuel n : ℕ) (h : n < fuel) :
    decimalValue (Nat.toDigitsCore 10 fuel n []) = n := by
  induction fuel generalizing n with
  | zero => omega
  | succ fuel ih =>
    simp only [Nat.toDigitsCore]
    split
    · rename_i h0
      have hn : n < 10 := by omega
      have hmod : n % 10 = n := by omega
      simp [decimalValue, hmod, digitChar_toNat n hn]
    · rename_i h0
      rw [toDigitsCore_append, decimalValue_append_singleton,
        ih (n / 10) (by omega), digitChar_toNat (n % 10) (Nat.mod_lt _ (by norm_num))]
      omega

theorem toDigitsCore_isDigit (fuel n : ℕ) :
    ∀ c ∈ Nat.toDigitsCore 10 fuel n [], c.isDigit = true := by
  induction fuel generalizing n with
  | zero => simp [Nat.toDigitsCore]
  | succ fuel ih =>
    intro c hc
    simp only [Nat.toDigitsCore] at hc
    split at hc
    · simp only [List.mem_singleton] at hc
      rw [hc]
      exact digitChar_isDigit _ (Nat.mod_lt _ (by norm_num))
    · rw [toDigitsCore_append] at hc
      rcases List.mem_append.mp hc with h | h
      · exact ih _ c h
      · simp only [List.mem_singleton] at h
        rw [h]
        exact digitChar_isDigit _ (Nat.mod_lt _ (by norm_num))

theorem toDigitsCore_ne_nil (fuel n : ℕ) : Nat.toDigitsCore 10 (fuel + 1) n [] ≠ [] := by
  simp only [Nat.toDigitsCore]
  split
  · simp
  · rw [toDigitsCore_append]
    simp

theorem decimalValue_toDigits (n : ℕ) : decimalValue (Nat.toDigits 10 n) = n :=
  decimalValue_toDigitsCore (n + 1) n (Nat.lt_succ_self n)

theorem toDigits_isDigit (n : ℕ) : ∀ c ∈ Nat.toDigits 10 n, c.isDigit = true :=
  toDigitsCore_isDigit (n + 1) n

theorem toDigits_ne_nil (n : ℕ) : Nat.toDigits 10 n ≠ [] :=
  toDigitsCore_ne_nil n n

theorem decimalValue_append (as bs : List Char) :
    decimalValue (as ++ bs) = decimalValue as * 10 ^ bs.length + decimalValue bs := by
  induction bs using List.reverseRecOn with
  | nil => simp [decimalValue]
  | append_singleton bs b ih =>
    rw [← List.append_assoc, decimalValue_append_singleton, ih, decimalValue_append_singleton]
    simp only [List.length_append, List.length_singleton, pow_succ]
    ring

theorem decimalValue_replicate_zero (k : ℕ) : decimalValue (List.replicate k '0') = 0 := by
  induction k with
  | zero => rfl
  | succ k ih =>
    rw [List.replicate_succ', decimalValue_append_singleton, ih]
    rfl

theorem isDigit_ne_point (c : Char) (h : c.isDigit = true) : (c != '.') = true := by
  rw [bne_iff_ne]
  rintro rfl
  exact absurd h (by decide)

theorem isDigit_ne_minus (c : Char) (h : c.isDigit = true) : c ≠ '-' := by
  rintro rfl
  exact absurd h (by decide)

theorem takeWhile_point (ip fp : List Char) (hip : ∀ c ∈ ip, c.isDigit = true) :
    (ip ++ '.' :: fp).takeWhile (fun c => c != '.') = ip := by
  induction ip with
  | nil => simp [List.takeWhile]
  | cons c cs ih =>
    have hc := isDigit_ne_point c (hip c (List.mem_cons_self _ _))
    rw [List.cons_append, List.takeWhile_cons, hc, if_pos rfl,
      ih (fun d hd => hip d (List.mem_cons_of_mem _ hd))]

theorem dropWhile_point (ip fp : List Char) (hip : ∀ c ∈ ip, c.isDigit = true) :
    (ip ++ '.' :: fp).dropWhile (fun c => c != '.') = '.' :: fp := by
  induction ip with
  | nil => simp [List.dropWhile]
  | cons c cs ih =>
    have hc := isDigit_ne_point c (hip c (List.mem_cons_self _ _))
    rw [List.cons_append, List.dropWhile_cons, hc, if_pos rfl,
      ih (fun d hd => hip d (List.mem_cons_of_mem _ hd))]

theorem isDigit_not_exponentMark (c : Char) (h : c.isDigit = true) :
    (!isExponentMark c) = true := by
  have h1 : c ≠ 'e' := by
    rintro rfl
    exact absurd h (by decide)
  have h2 : c ≠ 'E' := by
    rintro rfl
    exact absurd h (by decide)
  simp [isExponentMark, h1, h2]

theorem takeWhile_all {α : Type} (q : α → Bool) (l : List α) (h : ∀ c ∈ l, q c = true) :
    l.takeWhile q = l := by
  induction l with
  | nil => rfl
  | cons c cs ih =>
    rw [List.takeWhile_cons, h c (List.mem_cons_self _ _), if_pos rfl,
      ih (fun d hd => h d (List.mem_cons_of_mem _ hd))]

theorem dropWhile_all {α : Type} (q : α → Bool) (l : List α) (h : ∀ c ∈ l, q c = true) :
    l.dropWhile q = [] := by
  induction l with
  | nil => rfl
  | cons c cs ih =>
    rw [List.dropWhile_cons, h c (List.mem_cons_self _ _), if_pos rfl,
      ih (fun d hd => h d (List.mem_cons_of_mem _ hd))]

theorem takeWhile_append_stop {α : Type} (q : α → Bool) (l : List α) (c : α) (r : List α)
    (h : ∀ d ∈ l, q d = true) (hc : q c = false) : (l ++ c :: r).takeWhile q = l := by
  induction l with
  | nil => simp [List.takeWhile_cons, hc]
  | cons d ds ih =>
    rw [List.cons_append, List.takeWhile_cons, h d (List.mem_cons_self _ _), if_pos rfl,
      ih (fun x hx => h x (List.mem_cons_of_mem _ hx))]

theorem dropWhile_append_stop {α : Type} (q : α → Bool) (l : List α) (c : α) (r : List α)
    (h : ∀ d ∈ l, q d = true) (hc : q c = false) : (l ++ c :: r).dropWhile q = c :: r := by
  induction l with
  | nil => simp [List.dropWhile_cons, hc]
  | cons d ds ih =>
    rw [List.cons_append, List.dropWhile_cons, h d (List.mem_cons_self _ _), if_pos rfl,
      ih (fun x hx => h x (List.mem_cons_of_mem _ hx))]

/-- The mantissa `ip.fp` of digits has the value its digits denote, scaled by
the number of digits after the point. -/
theorem readMantissa_point (ip fp : List Char) (hne : ip ≠ [] ∨ fp ≠ [])
    (dip : ∀ c ∈ ip, c.isDigit = true) (dfp : ∀ c ∈ fp, c.isDigit = true) :
    readMantissa (ip ++ '.' :: fp)
      = some ((decimalValue (ip ++ fp) : ℚ) / (10 : ℚ) ^ fp.length) := by
  have hall1 : ip.all Char.isDigit = true := List.all_eq_true.mpr dip
  have hall2 : fp.all Char.isDigit = true := List.all_eq_true.mpr dfp
  simp only [readMantissa, takeWhile_point ip fp dip, dropWhile_point ip fp dip]
  rw [if_pos ⟨hne, hall1, hall2⟩, decimalValue_append]
  congr 1
  push_cast
  field_simp

/-- A mantissa of digits without a point has the value its digits denote. -/
theorem readMantissa_digits (ip : List Char) (hne : ip ≠ [])
    (dip : ∀ c ∈ ip, c.isDigit = true) :
    readMantissa ip = some (decimalValue ip : ℚ) := by
  have hall1 : ip.all Char.isDigit = true := List.all_eq_true.mpr dip
  have h1 := takeWhile_all (fun c => c != '.') ip (fun c hc => isDigit_ne_point c (dip c hc))
  have h2 := dropWhile_all (fun c => c != '.') ip (fun c hc => isDigit_ne_point c (dip c hc))
  simp only [readMantissa, h1, h2]
  rw [if_pos ⟨hne, hall1⟩]

/-- A numeral `ip.fp` of digits, without an exponent, has the value its digits
denote, scaled by the number of digits after the point. -/
theorem readUnsigned_point (ip fp : List Char) (hip : ip ≠ [])
    (dip : ∀ c ∈ ip, c.isDigit = true) (dfp : ∀ c ∈ fp, c.isDigit = true) :
    readUnsigned (ip ++ '.' :: fp)
      = some ((decimalValue (ip ++ fp) : ℚ) / (10 : ℚ) ^ fp.length) := by
  have hq : ∀ c ∈ ip ++ '.' :: fp, (!isExponentMark c) = true := by
    intro c hc
    rcases List.mem_append.mp hc with h | h
    · exact isDigit_not_exponentMark c (dip c h)
    · rcases List.mem_cons.mp h with rfl | h
      · decide
      · exact isDigit_not_exponentMark c (dfp c h)
  simp only [readUnsigned, takeWhile_all _ _ hq, dropWhile_all _ _ hq]
  exact readMantissa_point ip fp (Or.inl hip) dip dfp

/-- The shape of `x.toFixed(4)` below `1e21`: the sign, then digits with a point
before the last four, denoting the integer nearest to `|x| * 10 ^ 4`. -/
theorem toFixed_four (rt : JSRuntime) (x : ℚ) (h : ¬ (10 : ℚ) ^ 21 ≤ (if x < 0 then -x else x)) :
    ∃ ip fp : List Char,
      toFixed rt x 4 = (if x < 0 then "-" else "") ++ String.mk (ip ++ '.' :: fp)
      ∧ ip ≠ [] ∧ fp.length = 4
      ∧ (∀ c ∈ ip, c.isDigit = true) ∧ (∀ c ∈ fp, c.isDigit = true)
      ∧ decimalValue (ip ++ fp)
          = ⌊(if x < 0 then -x else x) * (10 : ℚ) ^ 4 + 1 / 2⌋.toNat := by
  generalize hn : ⌊(if x < 0 then -x else x) * (10 : ℚ) ^ 4 + 1 / 2⌋.toNat = n
  generalize hm0 : (if n = 0 then ['0'] else Nat.toDigits 10 n) = m0
  have m0_digits : ∀ c ∈ m0, c.isDigit = true := by
    intro c hc
    rw [← hm0] at hc
    split at hc
    · simp only [List.mem_singleton] at hc
      rw [hc]; rfl
    · exact toDigits_isDigit n c hc
  have m0_value : decimalValue m0 = n := by
    rw [← hm0]
    split
    · rename_i h0
      rw [h0]; rfl
    · exact decimalValue_toDigits n
  generalize hm : (if m0.length ≤ 4 then List.replicate (4 + 1 - m0.length) '0' ++ m0 else m0) = m
  have m_len : 5 ≤ m.length := by
    rw [← hm]
    split
    · simp only [List.length_append, List.length_replicate]
      omega
    · omega
  have m_digits : ∀ c ∈ m, c.isDigit = true := by
    intro c hc
    rw [← hm] at hc
    split at hc
    · rcases List.mem_append.mp hc with h1 | h1
      · rw [(List.mem_replicate.mp h1).2]; rfl
      · exact m0_digits c h1
    · exact m0_digits c hc
  have m_value : decimalValue m = n := by
    rw [← hm]
    split
    · rw [decimalValue_append, decimalValue_replicate_zero, m0_value]
      simp
    · exact m0_value
  refine ⟨m.take (m.length - 4), m.drop (m.length - 4), ?_, ?_, ?_, ?_, ?_, ?_⟩
  · simp only [toFixed, fixedDigits, h, if_false, hn, hm0, hm]
    simp
  · intro hnil
    have := congrArg List.length hnil
    simp only [List.length_take, List.length_nil] at this
    omega
  · simp only [List.length_drop]
    omega
  · exact fun c hc => m_digits c (List.mem_of_mem_take hc)
  · exact fun c hc => m_digits c (List.mem_of_mem_drop hc)
  · rw [List.take_append_drop, m_value]

/-! ## Theorems: `combineAnimations` -/

namespace AnimationCombiner

theorem pushTracks_eq (total : ℚ) (tracks acc : List KeyframeTrack) :
    pushTracks total tracks acc = acc ++ tracks.map (newTrack total) := by
  unfold pushTracks
  induction tracks generalizing acc with
  | nil => simp
  | cons t ts ih => simp [List.foldl_cons, ih]

theorem combineLoop_cons (c : AnimationClip) (cs : List AnimationClip) (total : ℚ)
    (acc : List KeyframeTrack) :
    combineLoop (c :: cs) (total, acc) =
      combineLoop cs (toDouble (total + c.duration), pushTracks total c.tracks acc) := by
  simp [combineLoop]

/-- The result of the outer loop when the running total starts at `total`: the
total is the running double sum, and the tracks are, clip by clip, the tracks
pushed at the running total of the clips before. -/
theorem combineLoop_eq (clips : List AnimationClip) (total : ℚ) (acc : List KeyframeTrack) :
    combineLoop clips (total, acc) =
      (clips.foldl (fun t clip => toDouble (t + clip.duration)) total,
        acc ++ (List.range clips.length).flatMap (fun i =>
          match clips[i]? with
          | some clip =>
            clip.tracks.map (newTrack
              ((clips.take i).foldl (fun t c => toDouble (t + c.duration)) total))
          | none => [])) := by
  induction clips generalizing total acc with
  | nil => simp [combineLoop]
  | cons c cs ih =>
    rw [combineLoop_cons, ih, pushTracks_eq]
    refine Prod.ext ?_ ?_
    · simp
    · simp only [List.length_cons, List.range_succ_eq_map, List.flatMap_cons, List.flatMap_map]
      simp [Function.comp_def]

theorem combineLoop_length (clips : List AnimationClip) (total : ℚ) (acc : List KeyframeTrack) :
    (combineLoop clips (total, acc)).2.length =
      acc.length + (clips.map (fun c => c.tracks.length)).sum := by
  induction clips generalizing total acc with
  | nil => simp [combineLoop]
  | cons c cs ih =>
    rw [combineLoop_cons, ih, pushTracks_eq]
    simp [add_assoc]

theorem combinedClip_pair (A B : AnimationClip) :
    combinedClip [A, B] =
      { name := "combined", duration := toDouble (toDouble (0 + A.duration) + B.duration),
        tracks := A.tracks.map (newTrack 0)
          ++ B.tracks.map (newTrack (toDouble (0 + A.duration))) } := by
  simp [combinedClip, combineLoop, pushTracks_eq]

theorem toDouble_one : toDouble 1 = 1 := by
  simpa using toDouble_natCast 1 (by norm_num)

theorem toDouble_two : toDouble 2 = 2 := by
  simpa using toDouble_natCast 2 (by norm_num)

theorem toDouble_three : toDouble 3 = 3 := by
  simpa using toDouble_natCast 3 (by norm_num)

theorem toDouble_four : toDouble 4 = 4 := by
  simpa using toDouble_natCast 4 (by norm_num)

theorem toFloat32_one : toFloat32 1 = 1 := by
  simpa using toFloat32_natCast 1 (by norm_num)

theorem toFloat32_two : toFloat32 2 = 2 := by
  simpa using toFloat32_natCast 2 (by norm_num)

theorem toFloat32_three : toFloat32 3 = 3 := by
  simpa using toFloat32_natCast 3 (by norm_num)

/-- C1 as stated fails: in the combination of `clipThird`, whose duration is the
single-precision 0.3, and `clipTenth`, keyed at the single-precision 0.1, the
track from the second clip is keyed at `13421773 / 2 ^ 25`
(0.4000000059604645), the single-precision value nearest to the sum, and not
at the sum 0.4000000134110451 of its time and the duration before. -/
theorem combineAnimations_exact_shift_counterexample :
    (combinedClip [clipThird, clipTenth]).tracks
        = [keyAt (13421773 / 2 ^ 27), keyAt (13421773 / 2 ^ 25)]
    ∧ (13421773 / 2 ^ 25 : ℚ) ≠ 13421773 / 2 ^ 27 + clipThird.duration := by
  have hd : toDouble (10066330 / 2 ^ 25) = 10066330 / 2 ^ 25 :=
    roundBinary_of_scaled 53 (-1022) _ 10066330 (-25) (-2) (by norm_num)
      (by rw [abs_of_pos] <;> norm_num) (by norm_num)
  have ht : toDouble (13421773 / 2 ^ 27) = 13421773 / 2 ^ 27 :=
    roundBinary_of_scaled 53 (-1022) _ 13421773 (-27) (-4) (by norm_num)
      (by rw [abs_of_pos] <;> norm_num) (by norm_num)
  have ht32 : toFloat32 (13421773 / 2 ^ 27) = 13421773 / 2 ^ 27 :=
    roundBinary_of_scaled 24 (-126) _ 13421773 (-27) (-4) (by norm_num)
      (by rw [abs_of_pos] <;> norm_num) (by norm_num)
  have hs : toDouble (13421773 / 2 ^ 27 + 10066330 / 2 ^ 25) = 53687093 / 2 ^ 27 := by
    rw [show (13421773 / 2 ^ 27 + 10066330 / 2 ^ 25 : ℚ) = 53687093 / 2 ^ 27 by norm_num]
    exact roundBinary_of_scaled 53 (-1022) _ 53687093 (-27) (-2) (by norm_num)
      (by rw [abs_of_pos] <;> norm_num) (by norm_num)
  have hs32 : toFloat32 (53687093 / 2 ^ 27) = 13421773 / 2 ^ 25 := by
    rw [toFloat32, roundBinary_eval 24 (-126) _ (-2) (-25) 13421773
      (by rw [abs_of_pos] <;> norm_num) (by rw [abs_of_pos] <;> norm_num) (by norm_num)
      (by rw [abs_lt]; constructor <;> norm_num)]
    norm_num
  constructor
  · simp only [combinedClip_pair, clipThird, clipTenth, keyAt, newTrack, List.map_cons,
      List.map_nil, add_zero, zero_add, hd, ht, ht32, hs, hs32, List.singleton_append]
  · norm_num [clipThird]

/-- C1, amended: when the combination list holds at least two clips,
`combineAnimations` appends exactly one clip to `animations` and empties the
list; the clip is named "combined", its duration is the sum of the durations of
the listed clips taken in list order in double arithmetic from 0, and its tracks
are, clip by clip in list order and track by track in clip order, the tracks of
the listed clips with class, name and values kept and every time replaced by the
single-precision value nearest to the double sum of that time and the running
total of the durations of the clips before; there are as many tracks as the
listed clips have in total. -/
theorem combineAnimations_builds_combined (s : State) (h : 2 ≤ s.combinationList.length) :
    (combineAnimations s).animations = s.animations ++
      [{ name := "combined"
         duration := s.combinationList.foldl (fun total clip => toDouble (total + clip.duration)) 0
         tracks := (List.range s.combinationList.length).flatMap (fun i =>
           match s.combinationList[i]? with
           | some clip =>
             clip.tracks.map (fun t =>
               { ctor := t.ctor
                 name := t.name
                 times := t.times.map (fun x =>
                   toFloat32 (toDouble (x +
                     (s.combinationList.take i).foldl
                       (fun total c => toDouble (total + c.duration)) 0)))
                 values := t.values })
           | none => []) }]
    ∧ (combineAnimations s).combinationList = []
    ∧ (combinedClip s.combinationList).tracks.length =
        (s.combinationList.map (fun c => c.tracks.length)).sum := by
  have hlt : ¬ s.combinationList.length < 2 := by omega
  refine ⟨?_, ?_, ?_⟩
  · simp only [combineAnimations, hlt, if_false, combinedClip, combineLoop_eq, List.nil_append]
    rfl
  · simp [combineAnimations, hlt]
  · simp [combinedClip, combineLoop_length]

/-- Witness of the amended C1: combining the clips `clipA` and `clipB` of the
examples, of durations 1 and 2, appends the clip "combined" of duration 3 whose
three tracks are keyed at 0, 1 and 2. -/
theorem combineAnimations_builds_combined_witness :
    (combineAnimations (sessionWith [clipA, clipB])).animations =
      [clipA, clipB, { name := "combined", duration := 3, tracks := [keyAt 0, keyAt 1, keyAt 2] }] := by
  rw [(combineAnimations_builds_combined (sessionWith [clipA, clipB]) (by decide)).1]
  simp [sessionWith, clipA, clipB, keyAt, List.range_succ, List.flatMap, toDouble_zero,
    toFloat32_zero, toDouble_one, toFloat32_one, toDouble_two, toFloat32_two]
  norm_num [toDouble_two, toFloat32_two, toDouble_three]

/-- C4 as stated fails, in two ways.  In the combination of `clipShort`
(duration 1) and `clipEarly` (one key at time -1), the track that comes from the
second clip has the sample time 0, less than the duration 1 of the first.  In
the combination of `clipOdd` (duration 1.300000011920929) and `clipA` (one key
at time 0), the track that comes from the second clip has the sample time
`10905190 / 2 ^ 23` (1.2999999523162842), the single-precision value stored for
the duration, which is less than the duration. -/
theorem combineAnimations_second_clip_time_counterexample :
    ((combinedClip [clipShort, clipEarly]).tracks.drop clipShort.tracks.length = [keyAt 0]
      ∧ ¬ clipShort.duration ≤ 0)
    ∧ ((combinedClip [clipOdd, clipA]).tracks.drop clipOdd.tracks.length
          = [keyAt (10905190 / 2 ^ 23)]
      ∧ ¬ clipOdd.duration ≤ 10905190 / 2 ^ 23) := by
  have hd : toDouble (21810381 / 2 ^ 24) = 21810381 / 2 ^ 24 :=
    roundBinary_of_scaled 53 (-1022) _ 21810381 (-24) 0 (by norm_num)
      (by rw [abs_of_pos] <;> norm_num) (by norm_num)
  have hd32 : toFloat32 (21810381 / 2 ^ 24) = 10905190 / 2 ^ 23 := by
    rw [toFloat32, roundBinary_eval_tie 24 (-126) _ 0 (-23) 10905190
      (by rw [abs_of_pos] <;> norm_num) (by rw [abs_of_pos] <;> norm_num) (by norm_num)
      (by norm_num)]
    norm_num
  refine ⟨⟨?_, ?_⟩, ?_, ?_⟩
  · simp [combinedClip_pair, clipShort, clipEarly, keyAt, newTrack, toDouble_one, toDouble_zero,
      toFloat32_zero]
  · norm_num [clipShort]
  · simp only [combinedClip_pair, clipOdd, clipA, keyAt, newTrack, List.map_cons, List.map_nil,
      zero_add, hd, hd32, List.nil_append, List.length_nil, List.drop_zero]
  · norm_num [clipOdd]

/-- C4, amended: in the clip built from `[A, B]` the tracks after the first
`|A.tracks|` ones are the tracks of `B` with every time replaced by the
single-precision value nearest to the double sum of that time and `A.duration`;
so when `A.duration` is itself a single-precision value and no sample time of
`B` is negative, every sample time of these tracks is at least `A.duration`. -/
theorem combineAnimations_second_clip_times (A B : AnimationClip)
    (hA : toFloat32 A.duration = A.duration)
    (hB : ∀ track ∈ B.tracks, ∀ t ∈ track.times, 0 ≤ t) :
    (combinedClip [A, B]).tracks.drop A.tracks.length =
        B.tracks.map (fun track =>
          { ctor := track.ctor, name := track.name,
            times := track.times.map (fun t => toFloat32 (toDouble (t + A.duration))),
            values := track.values })
    ∧ ∀ track ∈ (combinedClip [A, B]).tracks.drop A.tracks.length,
        ∀ t ∈ track.times, A.duration ≤ t := by
  have hA64 : toDouble A.duration = A.duration := toDouble_of_toFloat32 _ hA
  have hdrop : (combinedClip [A, B]).tracks.drop A.tracks.length =
      B.tracks.map (newTrack A.duration) := by
    rw [combinedClip_pair]
    simp [List.drop_append_eq_append_drop, hA64]
  refine ⟨by rw [hdrop]; rfl, ?_⟩
  intro track htrack t ht
  rw [hdrop, List.mem_map] at htrack
  obtain ⟨orig, horig, rfl⟩ := htrack
  simp only [newTrack, List.mem_map] at ht
  obtain ⟨t0, ht0, rfl⟩ := ht
  have h0 := hB orig horig t0 ht0
  have h1 : toDouble A.duration ≤ toDouble (t0 + A.duration) := toDouble_mono (by linarith)
  have h2 := toFloat32_mono h1
  rw [hA64, hA] at h2
  exact h2

/-- Witness of the amended C4: in the combination of `clipA` and `clipB`, whose
sample times are 0 and 1, the tracks from `clipB` are keyed at 1 and 2, not
before the duration 1 of `clipA`. -/
theorem combineAnimations_second_clip_times_witness :
    (combinedClip [clipA, clipB]).tracks.drop clipA.tracks.length = [keyAt 1, keyAt 2] := by
  rw [(combineAnimations_second_clip_times clipA clipB (by simpa [clipA] using toFloat32_one) (by
    intro track htrack t ht
    simp [clipB, keyAt] at htrack
    rcases htrack with rfl | rfl <;> simp at ht <;> simp [ht])).1]
  simp [clipA, clipB, keyAt, toDouble_one, toFloat32_one]
  norm_num [toDouble_two, toFloat32_two]

/-- C5 as stated fails.  The clips `clipA` and `clipB` have the durations 1 and
2, and both orders give the clip of duration 3 with the tracks keyed at 0, 1 and
2.  The clips `clipShort` and `clipLong`, of durations 1 and 2 and without
tracks, give the same trackless clip in both orders.  The clips `clipHalf` and
`clipHalfUp`, of durations 1.5 and `1.5 + 2 ^ -23` and one track keyed at 1
each, give in both orders the tracks keyed at 1 and 2.5: the sum
`2.5 + 2 ^ -23` is stored as 2.5. -/
theorem combineAnimations_order_counterexample :
    (clipA.duration ≠ clipB.duration ∧
      combinedClip [clipA, clipB] = combinedClip [clipB, clipA]) ∧
    (clipShort.duration ≠ clipLong.duration ∧
      combinedClip [clipShort, clipLong] = combinedClip [clipLong, clipShort]) ∧
    (clipHalf.duration ≠ clipHalfUp.duration ∧
      combinedClip [clipHalf, clipHalfUp] = combinedClip [clipHalfUp, clipHalf]) := by
  have h32 : toDouble (3 / 2) = 3 / 2 :=
    roundBinary_of_scaled 53 (-1022) _ 3 (-1) 0 (by norm_num)
      (by rw [abs_of_pos] <;> norm_num) (by norm_num)
  have hup : toDouble (3 / 2 + 1 / 2 ^ 23) = 3 / 2 + 1 / 2 ^ 23 :=
    roundBinary_of_scaled 53 (-1022) _ 12582913 (-23) 0 (by norm_num)
      (by rw [abs_of_pos] <;> norm_num) (by norm_num)
  have hsum : toDouble (3 / 2 + (3 / 2 + 1 / 2 ^ 23)) = 3 + 1 / 2 ^ 23 := by
    rw [show (3 / 2 + (3 / 2 + 1 / 2 ^ 23) : ℚ) = 3 + 1 / 2 ^ 23 by norm_num]
    exact roundBinary_of_scaled 53 (-1022) _ 25165825 (-23) 1 (by norm_num)
      (by rw [abs_of_pos] <;> norm_num) (by norm_num)
  have hsum2 : toDouble (3 / 2 + 1 / 2 ^ 23 + 3 / 2) = 3 + 1 / 2 ^ 23 := by
    rw [show (3 / 2 + 1 / 2 ^ 23 + 3 / 2 : ℚ) = 3 / 2 + (3 / 2 + 1 / 2 ^ 23) by norm_num]
    exact hsum
  have h52 : toDouble (1 + 3 / 2) = 5 / 2 := by
    rw [show (1 + 3 / 2 : ℚ) = 5 / 2 by norm_num]
    exact roundBinary_of_scaled 53 (-1022) _ 5 (-1) 1 (by norm_num)
      (by rw [abs_of_pos] <;> norm_num) (by norm_num)
  have h52f : toFloat32 (5 / 2) = 5 / 2 :=
    roundBinary_of_scaled 24 (-126) _ 5 (-1) 1 (by norm_num)
      (by rw [abs_of_pos] <;> norm_num) (by norm_num)
  have h52up : toDouble (1 + (3 / 2 + 1 / 2 ^ 23)) = 5 / 2 + 1 / 2 ^ 23 := by
    rw [show (1 + (3 / 2 + 1 / 2 ^ 23) : ℚ) = 5 / 2 + 1 / 2 ^ 23 by norm_num]
    exact roundBinary_of_scaled 53 (-1022) _ 20971521 (-23) 1 (by norm_num)
      (by rw [abs_of_pos] <;> norm_num) (by norm_num)
  have h52upf : toFloat32 (5 / 2 + 1 / 2 ^ 23) = 5 / 2 := by
    rw [toFloat32, roundBinary_eval_tie 24 (-126) _ 1 (-22) 10485760
      (by rw [abs_of_pos] <;> norm_num) (by rw [abs_of_pos] <;> norm_num) (by norm_num)
      (by norm_num)]
    norm_num
  refine ⟨⟨?_, ?_⟩, ⟨?_, ?_⟩, ?_, ?_⟩
  · simp [clipA, clipB]
  · simp only [combinedClip_pair]
    simp [clipA, clipB, keyAt, newTrack, toDouble_zero, toFloat32_zero, toDouble_one,
      toFloat32_one, toDouble_two, toFloat32_two]
    norm_num [toDouble_two, toFloat32_two, toDouble_three, toFloat32_three]
  · simp [clipShort, clipLong]
  · simp only [combinedClip_pair]
    simp [clipShort, clipLong, toDouble_one, toDouble_two]
    norm_num [toDouble_three]
  · norm_num [clipHalf, clipHalfUp]
  · simp only [combinedClip_pair, clipHalf, clipHalfUp, keyAt, newTrack, List.map_cons,
      List.map_nil, zero_add, add_zero, h32, hup, hsum, hsum2, h52, h52f, h52up, h52upf,
      toDouble_one, toFloat32_one, List.singleton_append]

/-- C5, amended: for two clips `A` and `B` whose durations are doubles, the clip
built from `[A, B]` and the clip built from `[B, A]` have the same name and the
same duration, whether the durations of `A` and `B` differ or not; so the two
are equal exactly when their track lists are, the tracks stored for `A`
followed by those of `B` pushed at `A.duration`, and the tracks stored for `B`
followed by those of `A` pushed at `B.duration`.  When `A` and `B` have equally
many tracks, the two clips differ exactly when the tracks stored for `A` and for
`B` differ or the tracks of `B` pushed at `A.duration` differ from the tracks
of `A` pushed at `B.duration`. -/
theorem combineAnimations_order_sensitive (A B : AnimationClip)
    (hA : toDouble A.duration = A.duration) (hB : toDouble B.duration = B.duration) :
    (combinedClip [A, B]).name = (combinedClip [B, A]).name
    ∧ (combinedClip [A, B]).duration = (combinedClip [B, A]).duration
    ∧ (combinedClip [A, B] = combinedClip [B, A] ↔
        A.tracks.map (newTrack 0) ++ B.tracks.map (newTrack A.duration)
          = B.tracks.map (newTrack 0) ++ A.tracks.map (newTrack B.duration))
    ∧ (A.tracks.length = B.tracks.length →
        (combinedClip [A, B] ≠ combinedClip [B, A] ↔
          A.tracks.map (newTrack 0) ≠ B.tracks.map (newTrack 0)
            ∨ B.tracks.map (newTrack A.duration) ≠ A.tracks.map (newTrack B.duration))) := by
  have hdur : toDouble (toDouble (0 + A.duration) + B.duration)
      = toDouble (toDouble (0 + B.duration) + A.duration) := by
    rw [zero_add, zero_add, hA, hB, add_comm]
  have hiff : combinedClip [A, B] = combinedClip [B, A] ↔
      A.tracks.map (newTrack 0) ++ B.tracks.map (newTrack A.duration)
        = B.tracks.map (newTrack 0) ++ A.tracks.map (newTrack B.duration) := by
    rw [combinedClip_pair, combinedClip_pair, hdur]
    simp only [zero_add, hA, hB, AnimationClip.mk.injEq, true_and]
  refine ⟨by simp [combinedClip_pair], by simp only [combinedClip_pair, hdur], hiff, ?_⟩
  intro hlen
  rw [Ne, hiff]
  have hl : (A.tracks.map (newTrack 0)).length = (B.tracks.map (newTrack 0)).length := by
    simp [hlen]
  constructor
  · intro hne
    by_contra hcon
    push_neg at hcon
    exact hne (by rw [hcon.1, hcon.2])
  · rintro (h | h) heq
    · exact h (List.append_inj heq hl).1
    · exact h (List.append_inj heq hl).2

/-- Witness of the amended C5: `clipA` and `clipC`, of durations 1 and 3 and one
track keyed at 0 each, combine to different clips of the same duration in the
two orders. -/
theorem combineAnimations_order_sensitive_witness :
    (combinedClip [clipA, clipC]).duration = (combinedClip [clipC, clipA]).duration
    ∧ combinedClip [clipA, clipC] ≠ combinedClip [clipC, clipA] := by
  have h := combineAnimations_order_sensitive clipA clipC
    (by simpa [clipA] using toDouble_one) (by simpa [clipC] using toDouble_three)
  refine ⟨h.2.1, (h.2.2.2 (by simp [clipA, clipC])).mpr (Or.inr ?_)⟩
  simp [clipA, clipC, keyAt, newTrack, toDouble_one, toFloat32_one, toDouble_three,
    toFloat32_three]

/-- C9: while the combination list holds fewer than two clips, `combineAnimations`
leaves the whole state as it is, in particular `animations` and the combination
list, and appends no clip; a clip is appended to `animations` if and only if the
list holds at least two clips. -/
theorem combineAnimations_minimum_count (s : State) :
    (s.combinationList.length < 2 →
      combineAnimations s = s
      ∧ (combineAnimations s).animations = s.animations
      ∧ (combineAnimations s).combinationList = s.combinationList)
    ∧ ((∃ clip, (combineAnimations s).animations = s.animations ++ [clip])
        ↔ 2 ≤ s.combinationList.length) := by
  constructor
  · intro h
    simp [combineAnimations, h]
  · constructor
    · rintro ⟨clip, hclip⟩
      by_contra hlt
      have hlt2 : s.combinationList.length < 2 := by omega
      have hlen := congrArg List.length hclip
      simp [combineAnimations, hlt2] at hlen
    · intro h
      have hlt : ¬ s.combinationList.length < 2 := by omega
      exact ⟨combinedClip s.combinationList, by simp [combineAnimations, hlt]⟩

/-- Witness of C9: with only `clipA` in the combination list, and likewise with
an empty list, `combineAnimations` changes nothing. -/
theorem combineAnimations_minimum_count_witness :
    combineAnimations (sessionWith [clipA]) = sessionWith [clipA]
    ∧ combineAnimations (sessionWith []) = sessionWith [] :=
  ⟨((combineAnimations_minimum_count (sessionWith [clipA])).1 (by decide)).1,
   ((combineAnimations_minimum_count (sessionWith [])).1 (by decide)).1⟩

end AnimationCombiner

/-! ## Theorems: `formatRadian` -/

namespace AnimationCombiner

theorem MathPI_gt : (31415 : ℚ) / 10000 < MathPI := by
  norm_num [MathPI]

theorem MathPI_lt : MathPI < (31416 : ℚ) / 10000 := by
  norm_num [MathPI]

theorem fractions_gt (e : String × ℚ) (he : e ∈ fractions) : (4 : ℚ) / 100 < e.2 := by
  have h1 := MathPI_gt
  simp only [fractions, List.mem_cons, List.mem_singleton, List.not_mem_nil, or_false] at he
  rcases he with rfl | rfl | rfl | rfl | rfl | rfl | rfl | rfl | rfl | rfl | rfl | rfl <;>
    (simp only; linarith)

theorem fractions_pairwise_gap :
    fractions.Pairwise (fun e1 e2 => 2 * ((1 : ℚ) / 1000) < e1.2 - e2.2) := by
  have h1 := MathPI_gt
  simp only [fractions, List.pairwise_cons, List.mem_cons, List.mem_singleton, List.not_mem_nil,
    forall_eq_or_imp, forall_eq, List.Pairwise.nil, and_true, IsEmpty.forall_iff, implies_true]
  refine ⟨?_, ?_, ?_, ?_, ?_, ?_, ?_, ?_, ?_, ?_, ?_⟩ <;> (try refine ⟨?_, ?_⟩) <;>
    repeat (first | linarith | constructor)

theorem pairwise_gap_unique {l : List (String × ℚ)} {tol : ℚ}
    (hl : l.Pairwise (fun e1 e2 => 2 * tol < e1.2 - e2.2)) (a : ℚ) :
    ∀ e1 ∈ l, ∀ e2 ∈ l, |a - e1.2| < tol → |a - e2.2| < tol → e1 = e2 := by
  induction l with
  | nil => intro e1 h1; simp at h1
  | cons x xs ih =>
    rw [List.pairwise_cons] at hl
    intro e1 h1 e2 h2 ha hb
    rw [abs_lt] at ha hb
    rcases List.mem_cons.mp h1 with h1x | h1xs
    · rcases List.mem_cons.mp h2 with h2x | h2xs
      · rw [h1x, h2x]
      · have := hl.1 e2 h2xs
        rw [h1x] at ha
        linarith
    · rcases List.mem_cons.mp h2 with h2x | h2xs
      · have := hl.1 e1 h1xs
        rw [h2x] at hb
        linarith
      · exact ih hl.2 e1 h1xs e2 h2xs (abs_lt.mpr ha) (abs_lt.mpr hb)

theorem fractions_unique (a : ℚ) :
    ∀ e1 ∈ fractions, ∀ e2 ∈ fractions,
      |a - e1.2| < 1 / 1000 → |a - e2.2| < 1 / 1000 → e1 = e2 :=
  pairwise_gap_unique fractions_pairwise_gap a

theorem scanFractions_eq_some (sign : String) (a tol : ℚ) (table : List (String × ℚ))
    (e : String × ℚ) (he : e ∈ table) (hm : |a - e.2| < tol)
    (huniq : ∀ e2 ∈ table, |a - e2.2| < tol → e2 = e) :
    scanFractions sign a tol table = some (sign ++ e.1) := by
  induction table with
  | nil => simp at he
  | cons x xs ih =>
    obtain ⟨str, val⟩ := x
    by_cases hx : |a - val| < tol
    · have := huniq (str, val) (List.mem_cons_self _ _) hx
      subst this
      simp [scanFractions, hx]
    · have hmem : e ∈ xs := by
        rcases List.mem_cons.mp he with rfl | h
        · exact absurd hm hx
        · exact h
      simp only [scanFractions, hx, if_false]
      exact ih hmem (fun e2 h2 => huniq e2 (List.mem_cons_of_mem _ h2))

theorem scanFractions_eq_none (sign : String) (a tol : ℚ) (table : List (String × ℚ))
    (h : ∀ e ∈ table, ¬ |a - e.2| < tol) :
    scanFractions sign a tol table = none := by
  induction table with
  | nil => rfl
  | cons x xs ih =>
    obtain ⟨str, val⟩ := x
    have hx : ¬ |a - val| < tol := h (str, val) (List.mem_cons_self _ _)
    simp only [scanFractions, hx, if_false]
    exact ih (fun e he => h e (List.mem_cons_of_mem _ he))

theorem formatRadianOn_of_match (rt : JSRuntime) (table : List (String × ℚ)) (radian : ℚ)
    (e : String × ℚ) (hperm : table.Perm fractions) (he : e ∈ fractions)
    (hm : |(|radian|) - e.2| < 1 / 1000) :
    formatRadianOn rt table radian = (if radian < 0 then "-" else "") ++ e.1 := by
  have hbig : ¬ |radian| < 1 / 10000 := by
    have := fractions_gt e he
    rw [abs_lt] at hm
    linarith
  have hscan := scanFractions_eq_some (if radian < 0 then "-" else "") |radian| (1 / 1000) table e
    (hperm.mem_iff.mpr he) hm
    (fun e2 h2 h => fractions_unique |radian| e2 (hperm.mem_iff.mp h2) e he h hm)
  simp only [formatRadianOn, hbig, if_false, hscan]

theorem formatRadianOn_of_no_match (rt : JSRuntime) (table : List (String × ℚ)) (radian : ℚ)
    (hperm : table.Perm fractions) (hbig : ¬ |radian| < 1 / 10000)
    (hm : ∀ e ∈ fractions, ¬ |(|radian|) - e.2| < 1 / 1000) :
    formatRadianOn rt table radian = toFixed rt radian 4 := by
  have hscan := scanFractions_eq_none (if radian < 0 then "-" else "") |radian| (1 / 1000) table
    (fun e he => hm e (hperm.mem_iff.mp he))
  simp only [formatRadianOn, hbig, if_false, hscan]

/-- C10: for every radian value at most one of the twelve table entries lies
within the tolerance `1e-3` of its magnitude, any two entries being more than
twice the tolerance apart; so `formatRadian` returns the same text whatever the
order in which the table is scanned. -/
theorem formatRadian_table_unambiguous (rt : JSRuntime) (radian : ℚ) :
    (∀ e1 ∈ fractions, ∀ e2 ∈ fractions,
      |(|radian|) - e1.2| < 1 / 1000 → |(|radian|) - e2.2| < 1 / 1000 → e1 = e2)
    ∧ fractions.Pairwise (fun e1 e2 => 2 * ((1 : ℚ) / 1000) < |e1.2 - e2.2|)
    ∧ ∀ table : List (String × ℚ), table.Perm fractions →
        formatRadianOn rt table radian = formatRadian rt radian := by
  refine ⟨fractions_unique |radian|, ?_, ?_⟩
  · exact fractions_pairwise_gap.imp (fun h => lt_of_lt_of_le h (le_abs_self _))
  · intro table hperm
    unfold formatRadian
    by_cases hzero : |radian| < 1 / 10000
    · simp only [formatRadianOn, hzero, if_true]
    · by_cases hex : ∃ e ∈ fractions, |(|radian|) - e.2| < 1 / 1000
      · obtain ⟨e, he, hm⟩ := hex
        rw [formatRadianOn_of_match rt table radian e hperm he hm,
          formatRadianOn_of_match rt fractions radian e (List.Perm.refl _) he hm]
      · have hnone : ∀ e ∈ fractions, ¬ |(|radian|) - e.2| < 1 / 1000 :=
          fun e he h => hex ⟨e, he, h⟩
        rw [formatRadianOn_of_no_match rt table radian hperm hzero hnone,
          formatRadianOn_of_no_match rt fractions radian (List.Perm.refl _) hzero hnone]

/-- Witness of C10: scanning the table from its last entry to its first gives
the same text for the radian 1.5708 as `formatRadian` does. -/
theorem formatRadian_table_unambiguous_witness :
    formatRadianOn exampleRuntime fractions.reverse (15708 / 10000)
      = formatRadian exampleRuntime (15708 / 10000) :=
  (formatRadian_table_unambiguous exampleRuntime (15708 / 10000)).2.2 fractions.reverse
    (List.reverse_perm _)

/-- C2: for every entry of the table of `formatRadian`, the function returns the
label of that entry at the value of the entry, and the label with a minus sign in
front at the negated value. -/
theorem formatRadian_table_entries (rt : JSRuntime) :
    ∀ e ∈ fractions,
      formatRadian rt e.2 = e.1 ∧ formatRadian rt (-e.2) = "-" ++ e.1 := by
  intro e he
  have hpos := fractions_gt e he
  have hp : (0 : ℚ) < e.2 := by linarith
  constructor
  · have hm : |(|e.2|) - e.2| < 1 / 1000 := by
      rw [abs_of_pos hp]; norm_num
    have hneg : ¬ e.2 < 0 := not_lt.mpr hp.le
    rw [formatRadian, formatRadianOn_of_match rt fractions e.2 e (List.Perm.refl _) he hm]
    simp [hneg]
  · have hm : |(|(-e.2)|) - e.2| < 1 / 1000 := by
      rw [abs_neg, abs_of_pos hp]; norm_num
    have hneg : -e.2 < 0 := by linarith
    rw [formatRadian, formatRadianOn_of_match rt fractions (-e.2) e (List.Perm.refl _) he hm]
    simp [hneg]

/-- Witness of C2: at `Math.PI / 2` the text is `Math.PI/2`, at its negation
`-Math.PI/2`; likewise at the last entry `Math.PI / 72`. -/
theorem formatRadian_table_entries_witness :
    (formatRadian exampleRuntime (MathPI / 2) = "Math.PI/2"
      ∧ formatRadian exampleRuntime (-(MathPI / 2)) = "-Math.PI/2")
    ∧ (formatRadian exampleRuntime (MathPI / 72) = "Math.PI/72"
      ∧ formatRadian exampleRuntime (-(MathPI / 72)) = "-Math.PI/72") :=
  ⟨formatRadian_table_entries exampleRuntime ("Math.PI/2", MathPI / 2) (by simp [fractions]),
   formatRadian_table_entries exampleRuntime ("Math.PI/72", MathPI / 72) (by simp [fractions])⟩

theorem ite_neg_eq_abs (x : ℚ) : (if x < 0 then -x else x) = |x| := by
  split
  · rename_i h
    rw [abs_of_neg h]
  · rename_i h
    rw [abs_of_nonneg (not_lt.mp h)]

theorem toFixed_big (rt : JSRuntime) (x : ℚ) (f : ℕ) (hbig : (10 : ℚ) ^ 21 ≤ |x|) :
    toFixed rt x f = (if x < 0 then "-" else "") ++ rt.numberToString |x| := by
  simp only [toFixed, ite_neg_eq_abs, hbig, if_true]

theorem toFixed_of_floor (rt : JSRuntime) (x : ℚ) (f n : ℕ) (hsmall : ¬ (10 : ℚ) ^ 21 ≤ |x|)
    (hn : ⌊|x| * (10 : ℚ) ^ f + 1 / 2⌋ = (n : ℤ)) :
    toFixed rt x f = (if x < 0 then "-" else "") ++ String.mk (fixedDigits n f) := by
  simp only [toFixed, ite_neg_eq_abs, hsmall, if_false, hn, Int.toNat_ofNat]

theorem readMantissa_sign (c : Char) (cs : List Char) (hc : c.isDigit = false)
    (hp : (c != '.') = true) : readMantissa (c :: cs) = none := by
  simp only [readMantissa, List.takeWhile_cons, List.dropWhile_cons, hp, if_true]
  split <;> simp [hc]

theorem readUnsigned_sign (c : Char) (cs : List Char) (hc : c.isDigit = false)
    (hp : (c != '.') = true) (he : (!isExponentMark c) = true) :
    readUnsigned (c :: cs) = none := by
  simp only [readUnsigned, List.takeWhile_cons, List.dropWhile_cons, he, if_true,
    readMantissa_sign c _ hc hp]
  split <;> rfl

theorem readDecimal_of_readUnsigned (t : String) (q : ℚ) (h : readUnsigned t.data = some q) :
    readDecimal t = some q := by
  unfold readDecimal
  split
  · rename_i cs hcs
    rw [hcs, readUnsigned_sign '-' cs (by decide) (by decide) (by decide)] at h
    exact absurd h (by simp)
  · rename_i cs hcs
    rw [hcs, readUnsigned_sign '+' cs (by decide) (by decide) (by decide)] at h
    exact absurd h (by simp)
  · exact h

theorem readDecimal_minus (t : String) :
    readDecimal ("-" ++ t) = (readUnsigned t.data).map (fun q => -q) := by
  have : ("-" ++ t).data = '-' :: t.data := by
    rw [String.data_append]; rfl
  simp [readDecimal, this]

theorem readExponent_plus (n : ℕ) : readExponent ('+' :: Nat.toDigits 10 n) = some (n : ℤ) := by
  have hall : (Nat.toDigits 10 n).all Char.isDigit = true :=
    List.all_eq_true.mpr (toDigits_isDigit n)
  simp only [readExponent]
  rw [if_pos ⟨toDigits_ne_nil n, hall⟩, decimalValue_toDigits]

/-- The text built from digits and an exponent has the value of the digits,
with the point after the first, times the power of ten. -/
theorem readUnsigned_exponentText (ds : List Char) (n : ℕ) (hne : ds ≠ [])
    (hd : ∀ c ∈ ds, c.isDigit = true) :
    readUnsigned (exponentText ds n)
      = some ((decimalValue ds : ℚ) * (10 : ℚ) ^ (n : ℤ) / (10 : ℚ) ^ (ds.length - 1)) := by
  have hstop : (!isExponentMark 'e') = false := by decide
  cases ds with
  | nil => exact absurd rfl hne
  | cons d rest =>
    have hdd : d.isDigit = true := hd d (List.mem_cons_self _ _)
    cases rest with
    | nil =>
      have h1 : ∀ c ∈ [d], (!isExponentMark c) = true := by
        intro c hc
        rw [List.mem_singleton] at hc
        rw [hc]
        exact isDigit_not_exponentMark d hdd
      have htext : exponentText [d] n = [d] ++ 'e' :: ('+' :: Nat.toDigits 10 n) := rfl
      rw [htext]
      simp only [readUnsigned, takeWhile_append_stop _ _ _ _ h1 hstop,
        dropWhile_append_stop _ _ _ _ h1 hstop, readExponent_plus,
        readMantissa_digits [d] (by simp) hd]
      simp
    | cons r rs =>
      have hrest : ∀ c ∈ r :: rs, c.isDigit = true :=
        fun c hc => hd c (List.mem_cons_of_mem _ hc)
      have h1 : ∀ c ∈ [d] ++ '.' :: (r :: rs), (!isExponentMark c) = true := by
        intro c hc
        rcases List.mem_append.mp hc with h | h
        · rw [List.mem_singleton] at h
          rw [h]
          exact isDigit_not_exponentMark d hdd
        · rcases List.mem_cons.mp h with rfl | h
          · decide
          · exact isDigit_not_exponentMark c (hrest c h)
      have htext : exponentText (d :: r :: rs) n
          = ([d] ++ '.' :: (r :: rs)) ++ 'e' :: ('+' :: Nat.toDigits 10 n) := by
        simp [exponentText]
      rw [htext]
      simp only [readUnsigned, takeWhile_append_stop _ _ _ _ h1 hstop,
        dropWhile_append_stop _ _ _ _ h1 hstop, readExponent_plus,
        readMantissa_point [d] (r :: rs) (Or.inl (by simp))
          (fun c hc => by rw [List.mem_singleton] at hc; rw [hc]; exact hdd) hrest]
      simp only [List.singleton_append, List.length_cons, Nat.add_sub_cancel, zpow_natCast,
        Option.some.injEq]
      ring

theorem round_error (a : ℚ) (ha : 0 ≤ a) :
    |((⌊a * (10 : ℚ) ^ 4 + 1 / 2⌋.toNat : ℕ) : ℚ) / (10 : ℚ) ^ 4 - a| ≤ 5 / 100000 := by
  have hnn : (0 : ℤ) ≤ ⌊a * (10 : ℚ) ^ 4 + 1 / 2⌋ := Int.floor_nonneg.mpr (by positivity)
  have hcast : ((⌊a * (10 : ℚ) ^ 4 + 1 / 2⌋.toNat : ℕ) : ℚ) = (⌊a * (10 : ℚ) ^ 4 + 1 / 2⌋ : ℚ) := by
    have := Int.toNat_of_nonneg hnn
    exact_mod_cast congrArg (fun z : ℤ => (z : ℚ)) this
  rw [hcast]
  have h1 := Int.floor_le (a * (10 : ℚ) ^ 4 + 1 / 2)
  have h2 := Int.lt_floor_add_one (a * (10 : ℚ) ^ 4 + 1 / 2)
  rw [abs_le]
  constructor
  · rw [le_sub_iff_add_le, le_div_iff₀ (by norm_num)]
    linarith
  · rw [sub_le_iff_le_add, div_le_iff₀ (by norm_num)]
    linarith

/-- The double nearest to a multiple of `1e-4` differs from it by at most the
fraction `2 ^ -53` of it. -/
theorem toDouble_error_fixed (N : ℕ) :
    |toDouble ((N : ℚ) / (10 : ℚ) ^ 4) - (N : ℚ) / (10 : ℚ) ^ 4|
      ≤ ((N : ℚ) / (10 : ℚ) ^ 4) / (2 : ℚ) ^ 53 := by
  rcases Nat.eq_zero_or_pos N with h0 | hpos
  · simp [h0, toDouble_zero]
  · have hN : (1 : ℚ) ≤ N := by exact_mod_cast hpos
    have hd : (1 : ℚ) / 10000 ≤ (N : ℚ) / (10 : ℚ) ^ 4 := by
      rw [div_le_div_iff₀ (by norm_num) (by norm_num)]
      linarith
    have habs : |(N : ℚ) / (10 : ℚ) ^ 4| = (N : ℚ) / (10 : ℚ) ^ 4 := abs_of_nonneg (by positivity)
    have hmin : (2 : ℚ) ^ (-1022 : ℤ) ≤ |(N : ℚ) / (10 : ℚ) ^ 4| := by
      rw [habs]
      have h1 : (2 : ℚ) ^ (-1022 : ℤ) ≤ (2 : ℚ) ^ (-14 : ℤ) :=
        zpow_le_zpow_right₀ (by norm_num) (by norm_num)
      have h2 : (2 : ℚ) ^ (-14 : ℤ) ≤ 1 / 10000 := by norm_num
      linarith
    have := roundBinary_error 53 (-1022) _ hmin
    rw [habs] at this
    exact this

/-- The text `x.toFixed(4)` read back as a number is within `5e-5`, and the
rounding of the reading, of `x`, when `Number::toString` does at `|x|` what
ECMAScript asks of it. -/
theorem toFixed_reads_back (rt : JSRuntime) (x : ℚ)
    (hrt : (10 : ℚ) ^ 21 ≤ |x| → rt.numberToStringConforms |x|) :
    ∃ q, readNumber (toFixed rt x 4) = some q
      ∧ |q - x| ≤ 5 / 100000 + (|x| + 5 / 100000) / (2 : ℚ) ^ 53 := by
  have hbound : (0 : ℚ) ≤ 5 / 100000 + (|x| + 5 / 100000) / (2 : ℚ) ^ 53 := by positivity
  by_cases hbig : (10 : ℚ) ^ 21 ≤ |x|
  · obtain ⟨ds, n, hne, hd, htxt, hval⟩ := hrt hbig
    have hread := readUnsigned_exponentText ds n hne hd
    have htext := toFixed_big rt x 4 hbig
    refine ⟨x, ?_, by simpa using hbound⟩
    have hdata : (String.mk (exponentText ds n)).data = exponentText ds n := rfl
    rw [htext, htxt]
    by_cases hneg : x < 0
    · rw [if_pos hneg, readNumber, readDecimal_minus, hdata, hread, Option.map_some',
        Option.map_some', toDouble_neg, hval, abs_of_neg hneg, neg_neg]
    · rw [if_neg hneg, String.empty_append, readNumber,
        readDecimal_of_readUnsigned (String.mk (exponentText ds n)) _ hread, Option.map_some',
        hval, abs_of_nonneg (not_lt.mp hneg)]
  · have hbig2 : ¬ (10 : ℚ) ^ 21 ≤ (if x < 0 then -x else x) := by
      rw [ite_neg_eq_abs]; exact hbig
    obtain ⟨ip, fp, htext, hip, hfp, dip, dfp, hval⟩ := toFixed_four rt x hbig2
    have hread := readUnsigned_point ip fp hip dip dfp
    rw [hval, hfp, ite_neg_eq_abs] at hread
    have herr := round_error |x| (abs_nonneg x)
    have hdbl := toDouble_error_fixed ⌊|x| * (10 : ℚ) ^ 4 + 1 / 2⌋.toNat
    obtain ⟨N, hN⟩ : ∃ N : ℚ, N = ((⌊|x| * (10 : ℚ) ^ 4 + 1 / 2⌋.toNat : ℕ) : ℚ) / (10 : ℚ) ^ 4 :=
      ⟨_, rfl⟩
    rw [← hN] at herr hread hdbl
    rw [abs_le] at herr hdbl
    have hpow : (0 : ℚ) < (2 : ℚ) ^ 53 := by positivity
    have hN2 : N / (2 : ℚ) ^ 53 ≤ (|x| + 5 / 100000) / (2 : ℚ) ^ 53 :=
      div_le_div_of_nonneg_right (by linarith [herr.2]) hpow.le
    by_cases hneg : x < 0
    · refine ⟨toDouble (-N), ?_, ?_⟩
      · rw [htext]
        simp only [hneg, if_true, readNumber, readDecimal_minus, hread, Option.map_some']
      · have hax := abs_of_neg hneg
        rw [toDouble_neg, abs_le]
        constructor <;> linarith [herr.1, herr.2, hdbl.1, hdbl.2]
    · refine ⟨toDouble N, ?_, ?_⟩
      · rw [htext]
        simp only [hneg, if_false, String.empty_append, readNumber]
        rw [readDecimal_of_readUnsigned _ _ hread, Option.map_some']
      · have hax := abs_of_nonneg (not_lt.mp hneg)
        rw [abs_le]
        constructor <;> linarith [herr.1, herr.2, hdbl.1, hdbl.2]

/-- C6 as stated fails, in three ways.  The radian `2 ^ -14` (6.1e-5) is at least
`1e-2` away from every table entry, `formatRadian` returns "0" for it, and 0
is not within `5e-5` of it.  The radian `-1.571533203125` is at least `1e-2`
away from every table entry as well, and `formatRadian` returns for it the
label "-Math.PI/2", which is no numeral and whose value is not within `5e-5`
of it.  The radian `0.03125` is at least `1e-2` away from every table entry,
`formatRadian` returns "0.0313" for it, and that text read back is the double
`4510805386774289 / 2 ^ 57`, which is more than `5e-5` away from it. -/
theorem formatRadian_fallback_counterexample :
    ((∀ e ∈ fractions, (1 : ℚ) / 100 ≤ |1 / 16384 - e.2|)
      ∧ formatRadian exampleRuntime (1 / 16384) = "0"
      ∧ readNumber "0" = some 0
      ∧ ¬ |(0 : ℚ) - 1 / 16384| ≤ 5 / 100000)
    ∧ ((∀ e ∈ fractions, (1 : ℚ) / 100 ≤ |-(12874 / 8192) - e.2|)
      ∧ formatRadian exampleRuntime (-(12874 / 8192)) = "-Math.PI/2"
      ∧ readNumber "-Math.PI/2" = none
      ∧ ¬ |-(MathPI / 2) - -(12874 / 8192)| ≤ 5 / 100000)
    ∧ ((∀ e ∈ fractions, (1 : ℚ) / 100 ≤ |1 / 32 - e.2|)
      ∧ formatRadian exampleRuntime (1 / 32) = "0.0313"
      ∧ readNumber "0.0313" = some (4510805386774289 / 2 ^ 57)
      ∧ ¬ |(4510805386774289 / 2 ^ 57 : ℚ) - 1 / 32| ≤ 5 / 100000) := by
  refine ⟨⟨?_, ?_, ?_, ?_⟩, ⟨?_, ?_, ?_, ?_⟩, ?_, ?_, ?_, ?_⟩
  · intro e he
    have := fractions_gt e he
    rw [abs_sub_comm, le_abs]
    left
    linarith
  · have h : |(1 : ℚ) / 16384| < 1 / 10000 := by
      rw [abs_of_pos (by norm_num)]; norm_num
    simp only [formatRadian, formatRadianOn, h, if_true]
  · simp [readNumber, readDecimal, readUnsigned, readMantissa, isExponentMark, decimalValue,
      toDouble_zero]
  · rw [abs_le]
    norm_num
  · intro e he
    have := fractions_gt e he
    rw [abs_sub_comm, le_abs]
    left
    linarith
  · have hm : |(|(-(12874 / 8192 : ℚ))|) - MathPI / 2| < 1 / 1000 := by
      rw [abs_neg, abs_of_pos (by norm_num : (0 : ℚ) < 12874 / 8192), abs_lt]
      constructor <;> norm_num [MathPI]
    rw [formatRadian, formatRadianOn_of_match exampleRuntime fractions _ ("Math.PI/2", MathPI / 2)
      (List.Perm.refl _) (by simp [fractions]) hm]
    have hneg : (-(12874 / 8192 : ℚ)) < 0 := by norm_num
    simp only [hneg, if_true]
    decide
  · simp [readNumber, readDecimal, readUnsigned, readMantissa, isExponentMark]
  · rw [abs_le]
    norm_num [MathPI]
  · intro e he
    have hpos : |(1 : ℚ) / 32 - e.2| = e.2 - 1 / 32 := by
      rw [abs_sub_comm]
      exact abs_of_pos (by linarith [fractions_gt e he])
    rw [hpos]
    have h1 := MathPI_gt
    simp only [fractions, List.mem_cons, List.mem_singleton, List.not_mem_nil, or_false] at he
    rcases he with rfl | rfl | rfl | rfl | rfl | rfl | rfl | rfl | rfl | rfl | rfl | rfl <;>
      (simp only; linarith)
  · have habs : |(1 : ℚ) / 32| = 1 / 32 := abs_of_pos (by norm_num)
    have hfmt : formatRadian exampleRuntime (1 / 32) = toFixed exampleRuntime (1 / 32) 4 := by
      refine formatRadianOn_of_no_match exampleRuntime fractions (1 / 32) (List.Perm.refl _)
        (by rw [habs]; norm_num) ?_
      intro e he hclose
      rw [habs, abs_lt] at hclose
      have := fractions_gt e he
      linarith [hclose.1]
    rw [hfmt, toFixed_of_floor exampleRuntime (1 / 32) 4 313 (by rw [habs]; norm_num)
      (by rw [habs, Int.floor_eq_iff]; norm_num), if_neg (by norm_num)]
    decide
  · have hread : readDecimal "0.0313" = some (313 / 10000) := by
      have h := readUnsigned_point ['0'] ['0', '3', '1', '3'] (by simp)
        (by decide) (by decide)
      have h2 : readUnsigned ("0.0313" : String).data = some (313 / 10000) := by
        have hv : decimalValue (['0'] ++ ['0', '3', '1', '3']) = 313 := by decide
        rw [show ("0.0313" : String).data = ['0'] ++ '.' :: ['0', '3', '1', '3'] from rfl, h, hv]
        norm_num
      exact readDecimal_of_readUnsigned _ _ h2
    rw [readNumber, hread, Option.map_some', toDouble,
      roundBinary_eval 53 (-1022) _ (-5) (-57) 4510805386774289
        (by rw [abs_of_pos] <;> norm_num) (by rw [abs_of_pos] <;> norm_num) (by norm_num)
        (by rw [abs_lt]; constructor <;> norm_num)]
    norm_num
  · rw [abs_le]
    norm_num

/-- C6, amended: for every radian `r` of magnitude at least `1e-4` whose magnitude
is at least `1e-2` away from every table entry, `formatRadian` returns
`r.toFixed(4)`, and that text read back as a number, the double nearest to the
numeral, is within `5e-5 + (|r| + 5e-5) * 2 ^ -53` of `r`: within `5e-5` up to
the rounding of the reading.  For a magnitude of `1e21` or more the text is the
one of `Number::toString`, which is to do what ECMAScript asks of it. -/
theorem formatRadian_fallback_precision (rt : JSRuntime) (r : ℚ)
    (hmag : 1 / 10000 ≤ |r|)
    (hfar : ∀ e ∈ fractions, (1 : ℚ) / 100 ≤ |(|r|) - e.2|)
    (hrt : (10 : ℚ) ^ 21 ≤ |r| → rt.numberToStringConforms |r|) :
    formatRadian rt r = toFixed rt r 4
    ∧ ∃ q, readNumber (formatRadian rt r) = some q
        ∧ |q - r| ≤ 5 / 100000 + (|r| + 5 / 100000) / (2 : ℚ) ^ 53 := by
  have hfmt : formatRadian rt r = toFixed rt r 4 := by
    refine formatRadianOn_of_no_match rt fractions r (List.Perm.refl _) (not_lt.mpr hmag) ?_
    intro e he hclose
    have := hfar e he
    linarith
  refine ⟨hfmt, ?_⟩
  rw [hfmt]
  exact toFixed_reads_back rt r hrt

/-- Witness of the amended C6: the radian 1.234375 is away from the table and
below `1e21`, and the radian `1e21` is away from the table and gets from the
runtime of the examples the text "1e+21"; the text returned for either reads
back within the bound. -/
theorem formatRadian_fallback_precision_witness :
    (∃ q, readNumber (formatRadian exampleRuntime (79 / 64)) = some q
      ∧ |q - 79 / 64| ≤ 5 / 100000 + (|(79 / 64 : ℚ)| + 5 / 100000) / (2 : ℚ) ^ 53)
    ∧ (∃ q, readNumber (formatRadian exampleRuntime ((10 : ℚ) ^ 21)) = some q
      ∧ |q - (10 : ℚ) ^ 21| ≤ 5 / 100000 + (|(10 : ℚ) ^ 21| + 5 / 100000) / (2 : ℚ) ^ 53) :=
  ⟨(formatRadian_fallback_precision exampleRuntime (79 / 64)
      (by rw [abs_of_pos (by norm_num)]; norm_num)
      (by
        intro e he
        rw [abs_of_pos (by norm_num : (0 : ℚ) < 79 / 64), le_abs]
        simp only [fractions, List.mem_cons, List.mem_singleton, List.not_mem_nil, or_false] at he
        rcases he with rfl | rfl | rfl | rfl | rfl | rfl | rfl | rfl | rfl | rfl | rfl | rfl <;>
          norm_num [MathPI])
      (by
        intro h
        rw [abs_of_pos (by norm_num)] at h
        norm_num at h)).2,
   (formatRadian_fallback_precision exampleRuntime ((10 : ℚ) ^ 21)
      (by rw [abs_of_pos (by norm_num)]; norm_num)
      (by
        intro e he
        have h1 := fractions_gt e he
        have h2 : e.2 ≤ 4 := by
          have h3 := MathPI_lt
          simp only [fractions, List.mem_cons, List.mem_singleton, List.not_mem_nil,
            or_false] at he
          rcases he with rfl | rfl | rfl | rfl | rfl | rfl | rfl | rfl | rfl | rfl | rfl | rfl <;>
            (simp only; linarith)
        rw [abs_of_pos (by norm_num : (0 : ℚ) < 10 ^ 21), le_abs]
        left
        have : (5 : ℚ) ≤ 10 ^ 21 := by norm_num
        linarith)
      (by
        intro _
        rw [abs_of_pos (by norm_num : (0 : ℚ) < 10 ^ 21)]
        refine ⟨['1'], 21, by simp, by decide, rfl, ?_⟩
        have hone : decimalValue ['1'] = 1 := by decide
        have hv : ((decimalValue ['1'] : ℕ) : ℚ) * (10 : ℚ) ^ ((21 : ℕ) : ℤ)
            / (10 : ℚ) ^ ((['1'] : List Char).length - 1) = (10 : ℚ) ^ 21 := by
          rw [hone]
          norm_num
        rw [hv]
        exact roundBinary_of_scaled 53 (-1022) _ (5 ^ 21 * 2 ^ 4) 17 69 (by norm_num)
          (by rw [abs_of_pos] <;> norm_num) (by norm_num))).2⟩

theorem startsWithMinus_minus (t : String) : startsWithMinus ("-" ++ t) = true := by
  have : ("-" ++ t).data = '-' :: t.data := by
    rw [String.data_append]; rfl
  simp [startsWithMinus, this]

theorem startsWithMinus_label (e : String × ℚ) (he : e ∈ fractions) :
    startsWithMinus e.1 = false := by
  simp only [fractions, List.mem_cons, List.mem_singleton, List.not_mem_nil, or_false] at he
  rcases he with rfl | rfl | rfl | rfl | rfl | rfl | rfl | rfl | rfl | rfl | rfl | rfl <;> rfl

theorem startsWithMinus_toFixed (rt : JSRuntime) (x : ℚ)
    (hrt : (10 : ℚ) ^ 21 ≤ x → startsWithMinus (rt.numberToString x) = false) :
    startsWithMinus (toFixed rt x 4) = true ↔ x < 0 := by
  have hsmall : ¬ (10 : ℚ) ^ 21 ≤ |x| → ¬ (10 : ℚ) ^ 21 ≤ (if x < 0 then -x else x) := by
    rw [ite_neg_eq_abs]; exact id
  by_cases hneg : x < 0
  · have htext : ∃ t, toFixed rt x 4 = "-" ++ t := by
      by_cases hbig : (10 : ℚ) ^ 21 ≤ |x|
      · refine ⟨rt.numberToString |x|, ?_⟩
        rw [toFixed_big rt x 4 hbig, if_pos hneg]
      · obtain ⟨ip, fp, htext, -⟩ := toFixed_four rt x (hsmall hbig)
        refine ⟨String.mk (ip ++ '.' :: fp), ?_⟩
        rw [htext, if_pos hneg]
    obtain ⟨t, ht⟩ := htext
    simp [ht, startsWithMinus_minus, hneg]
  · have hax : |x| = x := abs_of_nonneg (not_lt.mp hneg)
    have hfalse : startsWithMinus (toFixed rt x 4) = false := by
      by_cases hbig : (10 : ℚ) ^ 21 ≤ |x|
      · rw [toFixed_big rt x 4 hbig, if_neg hneg, String.empty_append, hax]
        exact hrt (hax ▸ hbig)
      · obtain ⟨ip, fp, htext, hip, -, dip, -⟩ := toFixed_four rt x (hsmall hbig)
        rw [htext, if_neg hneg, String.empty_append]
        cases ip with
        | nil => exact absurd rfl hip
        | cons c cs =>
          have hc := isDigit_ne_minus c (dip c (List.mem_cons_self _ _))
          simp [startsWithMinus, hc]
    simp [hfalse, hneg]

theorem startsWithMinus_formatRadian (rt : JSRuntime) (value : ℚ)
    (hmag : 1 / 10000 ≤ |value|)
    (hrt : (10 : ℚ) ^ 21 ≤ value → startsWithMinus (rt.numberToString value) = false) :
    startsWithMinus (formatRadian rt value) = true ↔ value < 0 := by
  by_cases hex : ∃ e ∈ fractions, |(|value|) - e.2| < 1 / 1000
  · obtain ⟨e, he, hm⟩ := hex
    rw [formatRadian, formatRadianOn_of_match rt fractions value e (List.Perm.refl _) he hm]
    by_cases hneg : value < 0
    · simp [hneg, startsWithMinus_minus]
    · simp [hneg, startsWithMinus_label e he]
  · have hnone : ∀ e ∈ fractions, ¬ |(|value|) - e.2| < 1 / 1000 :=
      fun e he h => hex ⟨e, he, h⟩
    rw [formatRadian, formatRadianOn_of_no_match rt fractions value (List.Perm.refl _)
      (not_lt.mpr hmag) hnone]
    exact startsWithMinus_toFixed rt value hrt

/-- C7: for an axis value of magnitude at least `1e-4`, `generateLine` appends
the line `animations.push(["<bone>", "rotation", "<axis>", <text>, "<sign>"]);`
whose value text is `formatRadian(value)` and whose sign token is "+" when the
value is at least 0 and "-" otherwise; the value text begins with a minus sign
exactly when the sign token is "-" (for a value of `1e21` or more the text is
the one `Number::toString` gives, taken not to begin with a minus sign). -/
theorem generateLine_sign_consistent (rt : JSRuntime) (child : Object3D) (axis : String)
    (value : ℚ) (output : String) (hmag : 1 / 10000 ≤ |value|)
    (hrt : (10 : ℚ) ^ 21 ≤ value → startsWithMinus (rt.numberToString value) = false) :
    generateLine rt child axis value output
      = output ++ ("    animations.push([\"" ++ child.name ++ "\", \"rotation\", \"" ++ axis
          ++ "\", " ++ formatRadian rt value ++ ", \""
          ++ (if 0 ≤ value then "+" else "-") ++ "\"]);\n")
    ∧ (startsWithMinus (formatRadian rt value) = true
        ↔ (if 0 ≤ value then "+" else "-") = "-") := by
  refine ⟨?_, ?_⟩
  · simp only [generateLine, not_lt.mpr hmag, if_false, pushLine, signChar]
  · rw [startsWithMinus_formatRadian rt value hmag hrt]
    by_cases h : 0 ≤ value
    · have h2 : ¬ value < 0 := not_lt.mpr h
      simp only [h, if_true, h2, false_iff]
      decide
    · simp only [h, if_false, not_le.mp h]

/-- Witness of C7: for the bone "Arm" and the value -1.5708 on the axis `x` the
line holds the value text `-Math.PI/2` and the sign token "-", and the value
text begins with a minus sign. -/
theorem generateLine_sign_consistent_witness :
    generateLine exampleRuntime armBone "x" (-(15708 / 10000)) ""
      = "    animations.push([\"Arm\", \"rotation\", \"x\", -Math.PI/2, \"-\"]);\n"
    ∧ startsWithMinus (formatRadian exampleRuntime (-(15708 / 10000))) = true := by
  have h := generateLine_sign_consistent exampleRuntime armBone "x" (-(15708 / 10000)) ""
    (by rw [abs_neg, abs_of_pos (by norm_num)]; norm_num)
    (by intro h; norm_num at h)
  have hneg : ¬ (0 : ℚ) ≤ -(15708 / 10000) := by norm_num
  have hm : |(|(-(15708 / 10000 : ℚ))|) - MathPI / 2| < 1 / 1000 := by
    rw [abs_neg, abs_of_pos (by norm_num : (0 : ℚ) < 15708 / 10000), abs_lt]
    constructor <;> norm_num [MathPI]
  have hfmt : formatRadian exampleRuntime (-(15708 / 10000)) = "-Math.PI/2" := by
    rw [formatRadian, formatRadianOn_of_match exampleRuntime fractions _ ("Math.PI/2", MathPI / 2)
      (List.Perm.refl _) (by simp [fractions]) hm, if_pos (by norm_num)]
    decide
  refine ⟨?_, ?_⟩
  · rw [h.1, hfmt, if_neg hneg]
    rfl
  · rw [h.2, if_neg hneg]

theorem pushLine_x_half_pi (b : String) :
    pushLine b "x" "Math.PI/2" "+"
      = "    animations.push([\"" ++ b ++ "\", \"rotation\", \"x\", Math.PI/2, \"+\"]);\n" := by
  simp only [pushLine, String.append_assoc]
  rfl

theorem generateLine_skip (rt : JSRuntime) (child : Object3D) (axis : String) (value : ℚ)
    (output : String) (h : |value| < 1 / 10000) :
    generateLine rt child axis value output = output := by
  simp only [generateLine, h, if_true]

theorem traverse_leaf {σ : Type} (callback : Object3D → σ → σ) (n : String) (b : Bool)
    (r : Euler) (s : σ) :
    traverse callback (.mk n b r []) s = callback (.mk n b r []) s := by
  simp only [traverse, traverseChildren]

/-- C3: for a model that is a single bone named `b` whose rotation is `(v, y, z)`
with `v` positive and less than `1e-3` away from `Math.PI / 2` and with `y` and
`z` of magnitude below `1e-4`, and for every file name `n`, the text `exportPose`
stores is the header line with `n` in upper case, the declaration of
`animations`, the one instruction line
`animations.push(["b", "rotation", "x", Math.PI/2, "+"]);` and the closing text. -/
theorem exportPose_single_bone (rt : JSRuntime) (s : State) (b n : String) (v y z : ℚ)
    (hmodel : s.model = some (Object3D.mk b true ⟨v, y, z⟩ [])) (hname : s.fileName = n)
    (hv : 0 < v) (hnear : |v - MathPI / 2| < 1 / 1000)
    (hy : |y| < 1 / 10000) (hz : |z| < 1 / 10000) :
    (exportPose rt s).exportedData =
      "export const " ++ rt.toUpperCase n ++ " = (ref) => \x7b\n\n"
        ++ "    let animations = []\n\n"
        ++ ("    animations.push([\"" ++ b ++ "\", \"rotation\", \"x\", Math.PI/2, \"+\"]);\n")
        ++ "\n    ref.animations.push(animations);\n\n"
        ++ "    if(ref.pending === false)\x7b\n"
        ++ "        ref.pending = true;\n"
        ++ "        ref.animate();\n"
        ++ "    \x7d\n\n"
        ++ "\x7d\n" := by
  have hfmt : formatRadian rt v = "Math.PI/2" := by
    have hm : |(|v|) - (("Math.PI/2", MathPI / 2) : String × ℚ).2| < 1 / 1000 := by
      rw [abs_of_pos hv]; exact hnear
    rw [formatRadian, formatRadianOn_of_match rt fractions v ("Math.PI/2", MathPI / 2)
      (List.Perm.refl _) (by simp [fractions]) hm, if_neg (not_lt.mpr hv.le)]
    rfl
  have hbig : ¬ |v| < 1 / 10000 := by
    have := MathPI_gt
    rw [abs_lt] at hnear
    rw [abs_of_pos hv]
    linarith
  have hsign : signChar v = "+" := by
    simp only [signChar, hv.le, if_true]
  have hvisit : ∀ output, visit rt (Object3D.mk b true ⟨v, y, z⟩ []) output
      = output ++ pushLine b "x" "Math.PI/2" "+" := by
    intro output
    simp only [visit, Object3D.isBone, Object3D.rotation, if_true]
    rw [generateLine_skip rt _ "z" z _ hz, generateLine_skip rt _ "y" y _ hy]
    simp only [generateLine, hbig, if_false, hfmt, hsign, Object3D.name]
  simp only [exportPose, hmodel, exportText, traverse_leaf, hvisit, hname, exportHeader,
    exportDecl, exportFooter, pushLine_x_half_pi]

/-- Witness of C3: for the bone "Arm" at the rotation `(1.5708, 0, 0)` loaded
from `pose1.glb`, the header line is `export const POSE1 = (ref) =>` with an
opening brace, and the one instruction line is `animations.push(["Arm", "rotation", "x", Math.PI/2, "+"]);`. -/
theorem exportPose_single_bone_witness :
    (exportPose exampleRuntime poseSession).exportedData =
      "export const POSE1 = (ref) => \x7b\n\n"
        ++ "    let animations = []\n\n"
        ++ "    animations.push([\"Arm\", \"rotation\", \"x\", Math.PI/2, \"+\"]);\n"
        ++ "\n    ref.animations.push(animations);\n\n"
        ++ "    if(ref.pending === false)\x7b\n"
        ++ "        ref.pending = true;\n"
        ++ "        ref.animate();\n"
        ++ "    \x7d\n\n"
        ++ "\x7d\n" := by
  rw [exportPose_single_bone exampleRuntime poseSession "Arm" "pose1" (15708 / 10000) 0 0
    rfl rfl (by norm_num)
    (by rw [abs_lt]; constructor <;> norm_num [MathPI])
    (by norm_num) (by norm_num)]
  rfl

end AnimationCombiner

/-! ## Theorems: the zero skip of the two exports -/

theorem toFixed_drift : toFixed exampleRuntime (1 / 16384) 4 = "0.0001" := by
  have habs : |(1 / 16384 : ℚ)| = 1 / 16384 := abs_of_pos (by norm_num)
  rw [AnimationCombiner.toFixed_of_floor exampleRuntime (1 / 16384) 4 1 (by rw [habs]; norm_num)
    (by rw [habs, Int.floor_eq_iff]; norm_num)]
  rw [if_neg (by norm_num)]
  decide

theorem toFixed_creep : toFixed exampleRuntime (-(1 / 32768)) 4 = "-0.0000" := by
  have habs : |(-(1 / 32768) : ℚ)| = 1 / 32768 := by
    rw [abs_neg]; exact abs_of_pos (by norm_num)
  rw [AnimationCombiner.toFixed_of_floor exampleRuntime (-(1 / 32768)) 4 0 (by rw [habs]; norm_num)
    (by rw [habs, Int.floor_eq_iff]; norm_num)]
  rw [if_pos (by norm_num)]
  decide

/-- In `AnimationCombiner.js` a node whose three rotation components each have
magnitude below `1e-4` leaves the export text as it is. -/
theorem combiner_visit_skip (rt : JSRuntime) (child : Object3D) (output : String)
    (hx : |child.rotation.x| < 1 / 10000) (hy : |child.rotation.y| < 1 / 10000)
    (hz : |child.rotation.z| < 1 / 10000) :
    AnimationCombiner.visit rt child output = output := by
  simp only [AnimationCombiner.visit, AnimationCombiner.generateLine, hx, hy, hz, if_true,
    ite_self]

/-- C8, the code against the claim: the rotation components of `driftBone`,
`2 ^ -14`, 0 and 0, and those of `creepBone`, `-(2 ^ -15)`, 0 and 0, all have
magnitudes below `1e-4`.  In `AnimationCombiner.js` neither bone adds anything to
the export text.  In `AnimationExporter.js` `driftBone` adds the line
`animations.push(["Arm", "rotation", "x", 0.0001, "+"]);` and `creepBone` the
line `animations.push(["Arm", "rotation", "x", -0.0000, "-"]);`, and the export
text of the model `driftBone` holds the line between the declaration and the
closing text. -/
theorem exportPose_zero_skip_exporter_emits :
    (|driftBone.rotation.x| < 1 / 10000 ∧ |driftBone.rotation.y| < 1 / 10000
      ∧ |driftBone.rotation.z| < 1 / 10000)
    ∧ AnimationCombiner.visit exampleRuntime driftBone "" = ""
    ∧ AnimationExporter.visit exampleRuntime driftBone ""
        = "    animations.push([\"Arm\", \"rotation\", \"x\", 0.0001, \"+\"]);\n"
    ∧ (|creepBone.rotation.x| < 1 / 10000 ∧ |creepBone.rotation.y| < 1 / 10000
      ∧ |creepBone.rotation.z| < 1 / 10000)
    ∧ AnimationCombiner.visit exampleRuntime creepBone "" = ""
    ∧ AnimationExporter.visit exampleRuntime creepBone ""
        = "    animations.push([\"Arm\", \"rotation\", \"x\", -0.0000, \"-\"]);\n"
    ∧ AnimationExporter.exportText exampleRuntime driftBone "pose1"
        = "export const POSE1 = (ref) => \x7b\n\n"
          ++ "    let animations = []\n\n"
          ++ "    animations.push([\"Arm\", \"rotation\", \"x\", 0.0001, \"+\"]);\n"
          ++ "\n    ref.animations.push(animations);\n\n"
          ++ "    if(ref.pending === false)\x7b\n"
          ++ "        ref.pending = true;\n"
          ++ "        ref.animate();\n"
          ++ "    \x7d\n\n"
          ++ "\x7d\n" := by
  have dx : |driftBone.rotation.x| < 1 / 10000 := by
    simp only [driftBone, Object3D.rotation]
    rw [abs_of_pos (by norm_num)]
    norm_num
  have dy : |driftBone.rotation.y| < 1 / 10000 := by simp [driftBone, Object3D.rotation]
  have dz : |driftBone.rotation.z| < 1 / 10000 := by simp [driftBone, Object3D.rotation]
  have cx : |creepBone.rotation.x| < 1 / 10000 := by
    simp only [creepBone, Object3D.rotation]
    rw [abs_neg, abs_of_pos (by norm_num)]
    norm_num
  have cy : |creepBone.rotation.y| < 1 / 10000 := by simp [creepBone, Object3D.rotation]
  have cz : |creepBone.rotation.z| < 1 / 10000 := by simp [creepBone, Object3D.rotation]
  have hdx : ((1 : ℚ) / 16384 ≠ 0) := by norm_num
  have hds : AnimationExporter.signChar (1 / 16384) = "+" := by
    simp only [AnimationExporter.signChar]
    norm_num
  have hcx : (-((1 : ℚ) / 32768) ≠ 0) := by norm_num
  have hcs : AnimationExporter.signChar (-(1 / 32768)) = "-" := by
    simp only [AnimationExporter.signChar]
    norm_num
  have hdrift : ∀ output, AnimationExporter.visit exampleRuntime driftBone output
      = output ++ "    animations.push([\"Arm\", \"rotation\", \"x\", 0.0001, \"+\"]);\n" := by
    intro output
    simp only [AnimationExporter.visit, driftBone, Object3D.isBone, Object3D.rotation,
      Object3D.name, AnimationExporter.axisLine, if_true, ne_eq, not_true_eq_false, if_false,
      hdx, not_false_eq_true, toFixed_drift, hds]
    rfl
  refine ⟨⟨dx, dy, dz⟩, combiner_visit_skip _ _ _ dx dy dz, ?_, ⟨cx, cy, cz⟩,
    combiner_visit_skip _ _ _ cx cy cz, ?_, ?_⟩
  · rw [hdrift]
    rfl
  · simp only [AnimationExporter.visit, creepBone, Object3D.isBone, Object3D.rotation,
      Object3D.name, AnimationExporter.axisLine, if_true, ne_eq, not_true_eq_false, if_false,
      hcx, not_false_eq_true, toFixed_creep, hcs]
    rfl
  · have hleaf : traverse (AnimationExporter.visit exampleRuntime) driftBone
        (exportHeader exampleRuntime "pose1" ++ exportDecl)
        = AnimationExporter.visit exampleRuntime driftBone
          (exportHeader exampleRuntime "pose1" ++ exportDecl) := by
      simp only [driftBone, traverse, traverseChildren]
    simp only [AnimationExporter.exportText, hleaf, hdrift]
    rfl

end SignKit
